import Mathlib

/-!
# Verification of the text shaping engine (`src/library/text/shaping.rs`)

Shallow embedding of the shaping pipeline: the shaped-run data structure,
the recursive segment shaper with font fallback, the tofu emitter, the
tracking/spacing pass, hyphen insertion, and the safe-to-break slicer.

External collaborators (the font store, the OpenType shaping primitive,
case transforms, face metrics) are modelled as an abstract `Env` of pure
functions; text is a `List Char` and all offsets are UTF-8 byte offsets,
matching the Rust code's `usize` byte indices.  `Em` lengths are
rationals.  The shaping primitive's two parallel output arrays
(`glyph_infos` and `glyph_positions`) are merged into one list of
`RawInfo`, with `face.to_em` folded into the oracle's advances, and the
feature-tag list folded into the oracle's `Styles` argument.
-/

set_option linter.unusedVariables false

namespace Shaping

/-- Text direction.  Only the two horizontal directions are modelled: the
source hits `unimplemented!("vertical text layout")` for the others. -/
inductive Dir where
  | ltr
  | rtl
deriving DecidableEq, Repr

/-- `Dir::is_positive`. -/
def Dir.is_positive : Dir → Bool
  | .ltr => true
  | .rtl => false

/-- Font-relative length (`Em` in the source). -/
abbrev Em := Rat

/-- UTF-8 byte length of a text (`str::len`). -/
def byteLen (t : List Char) : Nat := (t.map Char.utf8Size).sum

/-- Byte-offset/char pairs starting at offset `off`. -/
def charIndicesFrom (off : Nat) : List Char → List (Nat × Char)
  | [] => []
  | c :: t => (off, c) :: charIndicesFrom (off + c.utf8Size) t

/-- `str::char_indices`. -/
def char_indices (t : List Char) : List (Nat × Char) := charIndicesFrom 0 t

/-- The char starting at byte offset `n`, when `n` is a char boundary
strictly before the end of the text (`text[n..].chars().next()`). -/
def charAtByte : List Char → Nat → Option Char
  | [], _ => none
  | c :: t, n =>
    if n = 0 then some c
    else if n < c.utf8Size then none
    else charAtByte t (n - c.utf8Size)

/-- Drop the first `n` bytes of a text.  At a char boundary this models
`&text[n..]`; mid-char the Rust code would panic, here the partial char
is dropped whole. -/
def byteDrop : List Char → Nat → List Char
  | t, 0 => t
  | [], _ => []
  | c :: t, n + 1 => byteDrop t (n + 1 - c.utf8Size)

/-- Keep the first `n` bytes of a text (`&text[..n]` at char boundaries). -/
def byteTake : List Char → Nat → List Char
  | _, 0 => []
  | [], _ => []
  | c :: t, n + 1 => if c.utf8Size ≤ n + 1 then c :: byteTake t (n + 1 - c.utf8Size) else []

/-- `&text[a .. b]` at char boundaries. -/
def byteSlice (t : List Char) (a b : Nat) : List Char := byteTake (byteDrop t a) (b - a)

/-- A single glyph resulting from shaping (`ShapedGlyph`). -/
structure ShapedGlyph where
  face_id : Nat
  glyph_id : Nat
  x_advance : Em
  x_offset : Em
  cluster : Nat
  safe_to_break : Bool
  c : Char
deriving DecidableEq, Repr

instance : Inhabited ShapedGlyph := ⟨⟨0, 0, 0, 0, 0, false, ' '⟩⟩

/-- `FontStyle` from the font module (matched on in `variant`). -/
inductive FontStyle where
  | normal
  | italic
  | oblique
deriving DecidableEq, Repr

/-- `FontVariant`: the (style, weight, stretch) face-selection tuple. -/
structure FontVariant where
  style : FontStyle
  weight : Nat
  stretch : Nat
deriving DecidableEq, Repr

/-- The style-chain keys the shaping engine reads, resolved into a plain
record.  `textCase` is an abstract key for `TextNode::CASE`; the
`TOP_EDGE`/`BOTTOM_EDGE` metrics and the OpenType feature tags are folded
into the environment's face functions and shaping oracle. -/
structure Styles where
  family : List String
  fallback : Bool
  size : Rat
  tracking : Rat
  spacing : Rat
  textCase : Option Nat
  style : FontStyle
  weight : Nat
  stretch : Nat
  strong : Bool
  emph : Bool
deriving DecidableEq, Repr

/-- One entry of the shaping primitive's output: a `glyph_infos` entry
(`glyph_id`, `cluster`, `unsafe_to_break`) merged with its
`glyph_positions` entry, advances already converted by `face.to_em`. -/
structure RawInfo where
  glyph_id : Nat
  cluster : Nat
  unsafe_to_break : Bool
  x_advance : Em
  x_offset : Em
deriving DecidableEq, Repr

/-- The external collaborators: the font store (`select`,
`select_fallback`, face metric lookups), the OpenType shaping primitive
(`shapeRaw`), and the case transform.  Face ids are naturals. -/
structure Env where
  select : String → FontVariant → Option Nat
  select_fallback : Option Nat → FontVariant → List Char → Option Nat
  shapeRaw : Nat → Styles → Dir → List Char → List RawInfo
  advance : Nat → Nat → Option Em
  glyph_index : Nat → Char → Option Nat
  glyph_hor_advance : Nat → Nat → Option Em
  face_top : Nat → Styles → Rat
  face_bottom : Nat → Styles → Rat
  apply_case : Nat → List Char → List Char
  thicken : Nat → Nat → Nat

/-- `variant`: resolve the font variant with STRONG and EMPH factored in. -/
def variant (env : Env) (st : Styles) : FontVariant :=
  let v : FontVariant := ⟨st.style, st.weight, st.stretch⟩
  let v := if st.strong then { v with weight := env.thicken v.weight 300 } else v
  if st.emph then
    { v with style :=
        match v.style with
        | .normal => .italic
        | .italic => .normal
        | .oblique => .normal }
  else v

/-- The hard-coded fallback family tail. -/
def FALLBACKS : List String :=
  ["ibm plex sans", "twitter color emoji", "noto color emoji",
   "apple color emoji", "segoe ui emoji"]

/-- `families`: prioritized family list (user families, then the fallback
tail when FALLBACK is enabled). -/
def families (st : Styles) : List String :=
  st.family ++ (if st.fallback then FALLBACKS else [])

/-- The shaped-run value (`ShapedText`).  `size` is split into `width`
and `height`. -/
structure ShapedText where
  text : List Char
  dir : Dir
  styles : Styles
  width : Rat
  height : Rat
  baseline : Rat
  glyphs : List ShapedGlyph
deriving DecidableEq, Repr

/-- `measure`: width is the sum of resolved advances; top/bottom are the
maxima of the per-face vertical metrics over the faces used (starting
from `Length::zero()`), falling back to the first resolvable family when
there are no glyphs.  Returns `(width, height, baseline)`. -/
def measure (env : Env) (st : Styles) (glyphs : List ShapedGlyph) : Rat × Rat × Rat :=
  let width := glyphs.foldl (fun w g => w + g.x_advance * st.size) 0
  let faces : List Nat :=
    if glyphs.isEmpty then
      match (families st).findSome? (fun f => env.select f (variant env st)) with
      | some id => [id]
      | none => []
    else glyphs.map (·.face_id)
  let top := faces.foldl (fun m id => max m (env.face_top id st)) 0
  let bottom := faces.foldl (fun m id => max m (-(env.face_bottom id st))) 0
  (width, top + bottom, top)

/-- Body of the tracking/spacing walk (the `peekable` loop in
`track_and_space`): spaces get their advance multiplied by `spacing`,
and every glyph followed by a glyph of a different cluster gets
`tracking` added. -/
def trackSpaceGo (tracking spacing : Rat) : List ShapedGlyph → List ShapedGlyph
  | [] => []
  | g :: rest =>
    let g1 := if g.c = ' ' then { g with x_advance := g.x_advance * spacing } else g
    let g2 :=
      match rest.head? with
      | some nxt =>
        if g.cluster ≠ nxt.cluster then { g1 with x_advance := g1.x_advance + tracking } else g1
      | none => g1
    g2 :: trackSpaceGo tracking spacing rest

/-- `track_and_space`: skipped entirely when tracking is zero and spacing
is one. -/
def track_and_space (st : Styles) (glyphs : List ShapedGlyph) : List ShapedGlyph :=
  if st.tracking = 0 ∧ st.spacing = 1 then glyphs
  else trackSpaceGo st.tracking st.spacing glyphs

/-- A maximal piece of the shaping primitive's output as consumed by the
glyph loop of `shape_segment`: either a single glyph with nonzero id, or
a maximal run of tofus together with its first and last cluster and the
clusters of the infos immediately before and after the run. -/
inductive Chunk where
  | glyph (info : RawInfo)
  | tofu (firstCluster lastCluster : Nat) (prevCluster nextCluster : Option Nat)
deriving DecidableEq, Repr

/-- Decompose the shaping primitive's output into chunks, one pass over
the infos (the index arithmetic of the Rust loop becomes a small state
machine).  `prev` is the cluster of the info immediately before the
remaining list (`infos[k-1]` for a tofu run starting at `k`), `none` at
the start; `open_run` is the currently accumulating tofu run as
`(firstCluster, lastCluster)`. -/
def chunksAux (prev : Option Nat) (open_run : Option (Nat × Nat)) :
    List RawInfo → List Chunk
  | [] =>
    match open_run with
    | none => []
    | some (fc, lc) => [Chunk.tofu fc lc prev none]
  | info :: rest =>
    match open_run with
    | none =>
      if info.glyph_id = 0 then chunksAux prev (some (info.cluster, info.cluster)) rest
      else Chunk.glyph info :: chunksAux (some info.cluster) none rest
    | some (fc, lc) =>
      if info.glyph_id = 0 then chunksAux prev (some (fc, info.cluster)) rest
      else
        Chunk.tofu fc lc prev (some info.cluster) ::
          Chunk.glyph info :: chunksAux (some info.cluster) none rest

/-- Chunks of a full info list. -/
def chunks (prev : Option Nat) (infos : List RawInfo) : List Chunk :=
  chunksAux prev none infos

/-- Source byte range covered by a tofu run (the direction-aware range
computation at `shape_segment` lines 398-406).  The `.glyph` case is
never consulted. -/
def tofuRange (dir : Dir) (textLen : Nat) : Chunk → Nat × Nat
  | .glyph _ => (0, 0)
  | .tofu fc lc pc nc =>
    let start := if dir.is_positive then fc else lc
    let stop := (if dir.is_positive then nc else pc).getD textLen
    (start, stop)

/-- `shape_tofus`: one placeholder glyph per source char, using the given
face's advance for glyph 0 (`unwrap_or_default`). -/
def shape_tofus (env : Env) (face_id base : Nat) (text : List Char) : List ShapedGlyph :=
  (char_indices text).map fun p =>
    { face_id := face_id, glyph_id := 0, x_advance := (env.advance face_id 0).getD 0,
      x_offset := 0, cluster := base + p.1, safe_to_break := true, c := p.2 }

/-- The `families.find_map(...)` of `shape_segment`: the first family the
store resolves whose face is not already on the `used` stack, together
with the not-yet-consumed tail of the family iterator. -/
def findFace (env : Env) (v : FontVariant) (used : List Nat) :
    List String → Option (Nat × List String)
  | [] => none
  | f :: rest =>
    match env.select f v with
    | some id => if id ∈ used then findFace env v used rest else some (id, rest)
    | none => findFace env v used rest

/-- Family selection followed by the fallback query (`shape_segment`
lines 309-323).  When fallback supplies the face, the family iterator is
exhausted, so the remaining tail is empty. -/
def selectFace (env : Env) (st : Styles) (used : List Nat) (text : List Char)
    (fams : List String) : Option (Nat × List String) :=
  match findFace env (variant env st) used fams with
  | some r => some r
  | none =>
    if st.fallback then
      match env.select_fallback used.head? (variant env st) text with
      | some id => if id ∈ used then none else some (id, [])
      | none => none
    else none

/-- Build the shaped glyph for a nonzero-id info (`shape_segment` lines
359-370).  The `unwrap` on the cluster's first char is modelled by a
default that well-formed oracle output never reaches. -/
def mkGlyph (face_id base : Nat) (text : List Char) (info : RawInfo) : ShapedGlyph :=
  { face_id := face_id, glyph_id := info.glyph_id, x_advance := info.x_advance,
    x_offset := info.x_offset, cluster := base + info.cluster,
    safe_to_break := !info.unsafe_to_break,
    c := (charAtByte text info.cluster).getD ' ' }

/-- The half-baked-cluster trim: pop trailing glyphs whose cluster lies
in `[lo, hi)`. -/
def trimGlyphs (lo hi : Nat) (glyphs : List ShapedGlyph) : List ShapedGlyph :=
  (glyphs.reverse.dropWhile fun g => decide (lo ≤ g.cluster ∧ g.cluster < hi)).reverse

/-- One step of the glyph loop in `shape_segment`: a nonzero-id info is
appended as a shaped glyph; a tofu run is trimmed out of the already
emitted glyphs and recursively re-shaped (via `recur`, the segment
shaper one fuel level down) over its source byte range with the
remaining families. -/
def segStep (dir : Dir)
    (recur : List Nat → List ShapedGlyph → Nat → List Char → List String → List ShapedGlyph)
    (used2 : List Nat) (face_id base : Nat) (text : List Char) (rest : List String)
    (acc : List ShapedGlyph) (ch : Chunk) : List ShapedGlyph :=
  match ch with
  | .glyph info => acc ++ [mkGlyph face_id base text info]
  | .tofu fc lc pc nc =>
    let r := tofuRange dir (byteLen text) (.tofu fc lc pc nc)
    recur used2 (trimGlyphs (base + r.1) (base + r.2) acc) (base + r.1)
      (byteSlice text r.1 r.2) rest

/-- `shape_segment`: shape `text` (at byte offset `base` within the
enclosing run) with the fonts from `fams`, recursing over tofu runs with
the remaining families.  `glyphs` is the context's growing glyph vector
and `used` the stack of face ids on the current fallback path.  `fuel`
bounds the recursion depth (the Rust recursion terminates because the
font store holds finitely many faces; out of fuel the context is
returned unchanged). -/
def shape_segment (env : Env) (st : Styles) (dir : Dir) :
    Nat → List Nat → List ShapedGlyph → Nat → List Char → List String → List ShapedGlyph
  | 0, _, glyphs, _, _, _ => glyphs
  | fuel + 1, used, glyphs, base, text, fams =>
    if text.all (fun c => c == '\n' || c == '\t') then glyphs
    else
      match selectFace env st used text fams with
      | none =>
        match used.head? with
        | some fid => glyphs ++ shape_tofus env fid base text
        | none => glyphs
      | some (face_id, rest) =>
        (chunks none (env.shapeRaw face_id st dir text)).foldl
          (segStep dir
            (fun u g b t f => shape_segment env st dir fuel u g b t f)
            (used ++ [face_id]) face_id base text rest)
          glyphs

/-- `shape`: the entry point.  Applies the case transform, shapes the
segments, applies tracking/spacing, measures. -/
def shape (env : Env) (fuel : Nat) (text : List Char) (st : Styles) (dir : Dir) : ShapedText :=
  let text2 :=
    match st.textCase with
    | some k => env.apply_case k text
    | none => text
  let raw := if text2.isEmpty then [] else shape_segment env st dir fuel [] [] 0 text2 (families st)
  let glyphs := track_and_space st raw
  let m := measure env st glyphs
  { text := text2, dir := dir, styles := st, width := m.1, height := m.2.1,
    baseline := m.2.2, glyphs := glyphs }

/-- The `find_map` in `push_hyphen`: the first family whose face the
store resolves, that has a glyph for '-', and whose horizontal advance
is available.  Each `?` failure moves on to the next family. -/
def hyphenLookup (env : Env) (v : FontVariant) : List String → Option (Nat × Nat × Em)
  | [] => none
  | f :: rest =>
    match env.select f v with
    | none => hyphenLookup env v rest
    | some face_id =>
      match env.glyph_index face_id '-' with
      | none => hyphenLookup env v rest
      | some glyph_id =>
        match env.glyph_hor_advance face_id glyph_id with
        | none => hyphenLookup env v rest
        | some adv => some (face_id, glyph_id, adv)

/-- `push_hyphen`: append a '-' glyph carrying the last glyph's cluster
(`unwrap_or_default` gives 0 on an empty run) and grow the width; a
no-op when the lookup fails. -/
def push_hyphen (env : Env) (run : ShapedText) : ShapedText :=
  match hyphenLookup env (variant env run.styles) (families run.styles) with
  | none => run
  | some (face_id, glyph_id, adv) =>
    { run with
      width := run.width + adv * run.styles.size,
      glyphs := run.glyphs ++
        [{ face_id := face_id, glyph_id := glyph_id, x_advance := adv, x_offset := 0,
           cluster := ((run.glyphs.getLast?).map (·.cluster)).getD 0,
           safe_to_break := true, c := '-' }] }

/-- Rust `slice::binary_search_by` (only the Ok index; the Err index is
discarded by `.ok()` at the call site).  `left`/`right` bracket the
remaining search window; `gas` is a structural-recursion bound that
never runs out while `right - left ≤ gas`, which the initial call
guarantees because the window at least halves each iteration. -/
def bsIter (f : ShapedGlyph → Ordering) (xs : List ShapedGlyph) :
    Nat → Nat → Nat → Option Nat
  | 0, _, _ => none
  | gas + 1, left, right =>
    if left < right then
      match f (xs.getD (left + (right - left) / 2) default) with
      | .lt => bsIter f xs gas (left + (right - left) / 2 + 1) right
      | .gt => bsIter f xs gas left (left + (right - left) / 2)
      | .eq => some (left + (right - left) / 2)
    else none

/-- `glyphs.binary_search_by(f).ok()`. -/
def binary_search_by (f : ShapedGlyph → Ordering) (xs : List ShapedGlyph) : Option Nat :=
  bsIter f xs xs.length 0 xs.length

/-- The comparator of `find_safe_to_break`: compare the glyph's cluster
with the text index, reversed for RTL. -/
def clusterCmp (ltr : Bool) (text_index : Nat) (g : ShapedGlyph) : Ordering :=
  let o := compare g.cluster text_index
  if ltr then o else o.swap

/-- A side you can go toward. -/
inductive Side where
  | left
  | right
deriving DecidableEq, Repr

/-- The outward scan toward the left: step to `idx - 1` while that glyph
exists and has the target cluster. -/
def scanLeft (glyphs : List ShapedGlyph) (t : Nat) : Nat → Nat
  | 0 => 0
  | idx + 1 =>
    match glyphs.get? idx with
    | some g => if g.cluster = t then scanLeft glyphs t idx else idx + 1
    | none => idx + 1

/-- The outward scan toward the right: step to `idx + 1` while that glyph
exists and has the target cluster.  `gas` is a structural bound: the
loop takes at most `glyphs.length - idx - 1` steps (each step needs
`get?` to succeed at `idx + 1`), so `gas = glyphs.length` never runs
out. -/
def scanRightGo (glyphs : List ShapedGlyph) (t : Nat) : Nat → Nat → Nat
  | 0, idx => idx
  | gas + 1, idx =>
    match glyphs.get? (idx + 1) with
    | some g => if g.cluster = t then scanRightGo glyphs t gas (idx + 1) else idx
    | none => idx

/-- The right outward scan at full gas. -/
def scanRight (glyphs : List ShapedGlyph) (t : Nat) (idx : Nat) : Nat :=
  scanRightGo glyphs t glyphs.length idx

/-- Result of `find_safe_to_break` up to (but excluding) the final
`self.glyphs[idx].safe_to_break` read: the early edge-case returns, a
failed binary search, or the index the direct (panicking when out of
bounds) read happens at. -/
inductive FindResult where
  | edge (i : Nat)
  | found (i : Nat)
  | nomatch
deriving DecidableEq, Repr

/-- `find_safe_to_break` staged before its final indexed read. -/
def findStage (run : ShapedText) (text_index : Nat) (towards : Side) : FindResult :=
  if text_index = 0 then
    .edge (if run.dir.is_positive then 0 else run.glyphs.length)
  else if text_index = byteLen run.text then
    .edge (if run.dir.is_positive then run.glyphs.length else 0)
  else
    match binary_search_by (clusterCmp run.dir.is_positive text_index) run.glyphs with
    | none => .nomatch
    | some idx0 =>
      .found
        (if run.dir.is_positive then
          match towards with
          | .left => scanLeft run.glyphs text_index idx0
          | .right => scanRight run.glyphs text_index idx0
        else
          (match towards with
           | .left => scanLeft run.glyphs text_index idx0
           | .right => scanRight run.glyphs text_index idx0) + 1)

/-- `find_safe_to_break`.  The final `self.glyphs[idx]` read (a panic
when out of bounds, see C10) is modelled by `getD` with a default whose
`safe_to_break` is false, collapsing the panic into a `none` return;
`find_safe_to_break_checked` below models the read faithfully and
distinguishes the panic. -/
def find_safe_to_break (run : ShapedText) (text_index : Nat) (towards : Side) : Option Nat :=
  match findStage run text_index towards with
  | .edge i => some i
  | .nomatch => none
  | .found i => if (run.glyphs.getD i default).safe_to_break then some i else none

/-- `find_safe_to_break` with the final `self.glyphs[idx]` read modelled
faithfully: the outer `none` is the out-of-bounds panic, `some r` a
normal return of `r`. -/
def find_safe_to_break_checked (run : ShapedText) (text_index : Nat) (towards : Side) :
    Option (Option Nat) :=
  match findStage run text_index towards with
  | .edge i => some (some i)
  | .nomatch => some none
  | .found i =>
    if i < run.glyphs.length then
      some (if (run.glyphs.getD i default).safe_to_break then some i else none)
    else none

/-- `slice_safe_to_break`: swap the endpoints for RTL, find both
boundaries, slice.  The Rust `&glyphs[left..right]` (panicking when
`left > right` or `right > len`) is modelled by drop/take. -/
def slice_safe_to_break (run : ShapedText) (a b : Nat) : Option (List ShapedGlyph) :=
  let p := if run.dir.is_positive then (a, b) else (b, a)
  match find_safe_to_break run p.1 .left, find_safe_to_break run p.2 .right with
  | some left, some right => some ((run.glyphs.drop left).take (right - left))
  | _, _ => none

/-- `reshape`: return a borrowed sub-run over the sliced glyphs when both
boundaries are safe to break, otherwise re-shape the sub-text from
scratch. -/
def reshape (env : Env) (fuel : Nat) (run : ShapedText) (a b : Nat) : ShapedText :=
  match slice_safe_to_break run a b with
  | some gs =>
    let m := measure env run.styles gs
    { text := byteSlice run.text a b, dir := run.dir, styles := run.styles,
      width := m.1, height := m.2.1, baseline := m.2.2, glyphs := gs }
  | none => shape env fuel (byteSlice run.text a b) run.styles run.dir

/-! ## Concrete environments used by counterexamples and witnesses -/

/-- A well-behaved shaping oracle: one glyph per char, ascending
clusters, everything safe to break. -/
def perCharInfos (t : List Char) : List RawInfo :=
  (char_indices t).map fun p =>
    { glyph_id := 1, cluster := p.1, unsafe_to_break := false, x_advance := 1, x_offset := 0 }

/-- A one-face font store whose oracle shapes one glyph per char
(reversed into visual order for RTL). -/
def env1 : Env :=
  { select := fun _ _ => some 1,
    select_fallback := fun _ _ _ => none,
    shapeRaw := fun _ _ d t =>
      match d with
      | .ltr => perCharInfos t
      | .rtl => (perCharInfos t).reverse,
    advance := fun _ _ => some 1,
    glyph_index := fun _ _ => none,
    glyph_hor_advance := fun _ _ => none,
    face_top := fun _ _ => 0,
    face_bottom := fun _ _ => 0,
    apply_case := fun _ t => t,
    thicken := fun n d => n + d }

/-- Plain styles: one family, no fallback, no case transform, tracking 0,
spacing 1. -/
def st1 : Styles :=
  { family := ["f"], fallback := false, size := 1, tracking := 0, spacing := 1,
    textCase := none, style := .normal, weight := 400, stretch := 5,
    strong := false, emph := false }

/-- The LTR run for "ab" shaped from scratch under `env1`. -/
def run1 : ShapedText := shape env1 3 ['a', 'b'] st1 .ltr

/-- The RTL run for "abc" shaped from scratch under `env1`. -/
def runR : ShapedText := shape env1 3 ['a', 'b', 'c'] st1 .rtl

/-- The borrowed sub-run `reshape(runR, 1..3)`. -/
def childR : ShapedText := reshape env1 3 runR 1 3

/-- Like `env1`, but the oracle reports every glyph as tofu
(glyph id 0). -/
def env3 : Env :=
  { env1 with
    shapeRaw := fun _ _ _ t =>
      (char_indices t).map fun p =>
        { glyph_id := 0, cluster := p.1, unsafe_to_break := false, x_advance := 1,
          x_offset := 0 } }

/-- Font store with two families: "a" resolves to face 1 which has no
'-' glyph, "b" resolves to face 2 which has one (glyph 9, advance 1). -/
def env8 : Env :=
  { env1 with
    select := fun f _ => if f = "a" then some 1 else if f = "b" then some 2 else none,
    glyph_index := fun fid c => if fid = 2 ∧ c = '-' then some 9 else none,
    glyph_hor_advance := fun fid gid => if fid = 2 ∧ gid = 9 then some 1 else none }

/-- Styles listing the two families of `env8`. -/
def st8 : Styles := { st1 with family := ["a", "b"] }

/-- An empty run carrying `st8`. -/
def run8 : ShapedText :=
  { text := ['x'], dir := .ltr, styles := st8, width := 0, height := 0,
    baseline := 0, glyphs := [] }

/-- The first family the store can resolve for the variant (the "first
available family+variant face" of the spec's hyphen-insertion text). -/
def firstAvailableFace (env : Env) (v : FontVariant) : List String → Option Nat
  | [] => none
  | f :: rest =>
    match env.select f v with
    | some id => some id
    | none => firstAvailableFace env v rest

/-! ## C4: tracking 0 / spacing 1 skips the pass -/

/-- C4: when the TRACKING style value is zero and the SPACING style value
is one, the tracking-and-spacing pass returns the glyph vector
unchanged (it is skipped entirely). -/
theorem c4_track_space_skip (st : Styles) (glyphs : List ShapedGlyph)
    (h0 : st.tracking = 0) (h1 : st.spacing = 1) :
    track_and_space st glyphs = glyphs := by
  unfold track_and_space
  rw [if_pos ⟨h0, h1⟩]

/-- C4 witness: the skip at a concrete style and glyph vector. -/
theorem c4_witness :
    st1.tracking = 0 ∧ st1.spacing = 1 ∧ track_and_space st1 run1.glyphs = run1.glyphs :=
  ⟨rfl, rfl, c4_track_space_skip st1 run1.glyphs rfl rfl⟩

/-! ## C5: tofu emission when no face can be found -/

/-- C5: when family selection and fallback both fail (and the segment is
not all newlines/tabs), `shape_segment` emits, with the outermost used
face, one glyph per source char carrying glyph id 0, the face's advance
for glyph 0 (or zero), cluster `base +` the char's byte offset,
`safe_to_break` and the char itself; with an empty `used` stack it
returns the glyph vector unchanged. -/
theorem c5_tofu_when_no_face (env : Env) (st : Styles) (dir : Dir) (fuel : Nat)
    (used : List Nat) (glyphs : List ShapedGlyph) (base : Nat) (text : List Char)
    (fams : List String)
    (hnt : text.all (fun c => c == '\n' || c == '\t') = false)
    (hsel : selectFace env st used text fams = none) :
    shape_segment env st dir (fuel + 1) used glyphs base text fams =
      match used.head? with
      | some fid =>
        glyphs ++ (char_indices text).map (fun p =>
          { face_id := fid, glyph_id := 0, x_advance := (env.advance fid 0).getD 0,
            x_offset := 0, cluster := base + p.1, safe_to_break := true, c := p.2 })
      | none => glyphs := by
  simp only [shape_segment, hnt, Bool.false_eq_true, if_false, hsel]
  cases used.head? <;> simp [shape_tofus]

/-- C5 witness: tofu emission at a concrete input where the only
resolvable face is already on the `used` stack. -/
theorem c5_witness :
    shape_segment env3 st1 .ltr 1 [1] [] 0 ['a'] ["f"] =
      [{ face_id := 1, glyph_id := 0, x_advance := 1, x_offset := 0, cluster := 0,
         safe_to_break := true, c := 'a' }] := by
  have h := c5_tofu_when_no_face env3 st1 .ltr 0 [1] [] 0 ['a'] ["f"] (by decide) (by decide)
  simpa using h

/-! ## C8: hyphen insertion -/

/-- C8 counterexample: the first available family+variant face (face 1
via family "a") has no '-' glyph, yet `push_hyphen` is not a no-op and
the appended glyph does not come from that first available face — the
lookup moves on to family "b" (face 2) instead, contradicting the claim
that the lookup uses the first available family+variant face. -/
theorem c8_counterexample :
    env8.glyph_index 1 '-' = none ∧
    firstAvailableFace env8 (variant env8 run8.styles) (families run8.styles) = some 1 ∧
    ¬ ((push_hyphen env8 run8).glyphs = run8.glyphs ∨
        ∀ g ∈ (push_hyphen env8 run8).glyphs,
          g ∈ run8.glyphs ∨
            some g.face_id =
              firstAvailableFace env8 (variant env8 run8.styles) (families run8.styles)) := by
  decide

/-- C8 amended: `push_hyphen` appends exactly one glyph with `c = '-'`,
`safe_to_break = true`, the last glyph's cluster, and grows the width by
exactly the resolved advance, using the *first family whose resolved
face provides a '-' glyph with a horizontal advance* (`hyphenLookup`);
when no family provides one it is a no-op. -/
theorem c8_push_hyphen_spec (env : Env) (run : ShapedText) :
    (hyphenLookup env (variant env run.styles) (families run.styles) = none →
      push_hyphen env run = run) ∧
    (∀ fid gid adv,
      hyphenLookup env (variant env run.styles) (families run.styles) = some (fid, gid, adv) →
      push_hyphen env run =
        { run with
          width := run.width + adv * run.styles.size,
          glyphs := run.glyphs ++
            [{ face_id := fid, glyph_id := gid, x_advance := adv, x_offset := 0,
               cluster := ((run.glyphs.getLast?).map (·.cluster)).getD 0,
               safe_to_break := true, c := '-' }] }) := by
  constructor
  · intro h
    unfold push_hyphen
    rw [h]
  · intro fid gid adv h
    unfold push_hyphen
    rw [h]

/-- C8 witness: the hyphen append at a concrete input (face 2 via the
second family), with the width growing by the advance. -/
theorem c8_witness :
    push_hyphen env8 run8 =
      { run8 with
        width := run8.width + 1 * run8.styles.size,
        glyphs := run8.glyphs ++
          [{ face_id := 2, glyph_id := 9, x_advance := 1, x_offset := 0,
             cluster := ((run8.glyphs.getLast?).map (·.cluster)).getD 0,
             safe_to_break := true, c := '-' }] } :=
  (c8_push_hyphen_spec env8 run8).2 2 9 1 (by decide)

/-! ## C7: no face reuse along the fallback path -/

/-- C7 counterexample: the claim, read as "no glyph appended carries a
face id already on `used` at its production depth", fails for tofu
glyphs: in this run the oracle reports only tofus for face 1, so the
recursion at depth 1 (where `used = [1]`) emits a tofu glyph whose face
id 1 *is* on the stack; the outer `shape` reaches exactly this
invocation. -/
theorem c7_counterexample :
    (shape env3 2 ['a'] st1 .ltr).glyphs = shape_segment env3 st1 .ltr 1 [1] [] 0 ['a'] [] ∧
    ¬ ∀ g ∈ shape_segment env3 st1 .ltr 1 [1] [] 0 ['a'] [], g.face_id ∉ ([1] : List Nat) := by
  decide

/-- Generic preservation lemma for `List.foldl`. -/
theorem foldl_preserve {α β : Type} (P : α → Prop) (step : α → β → α) :
    ∀ (l : List β) (acc : α), P acc → (∀ a b, b ∈ l → P a → P (step a b)) →
      P (l.foldl step acc)
  | [], acc, h, _ => h
  | b :: l, acc, h, hs =>
    foldl_preserve P step l (step acc b) (hs acc b (List.mem_cons_self _ _) h)
      (fun a b' hb' ha => hs a b' (List.mem_cons_of_mem _ hb') ha)

/-- The trim only removes glyphs: its result is a sublist. -/
theorem trimGlyphs_sublist (lo hi : Nat) (l : List ShapedGlyph) :
    (trimGlyphs lo hi l).Sublist l := by
  have h := List.dropWhile_sublist
    (l := l.reverse) (p := fun g => decide (lo ≤ g.cluster ∧ g.cluster < hi))
  simpa [trimGlyphs] using h.reverse

/-- A face delivered by the family `find_map` is never on `used`. -/
theorem findFace_not_used (env : Env) (v : FontVariant) (used : List Nat) :
    ∀ (fams : List String) (fid : Nat) (rest : List String),
      findFace env v used fams = some (fid, rest) → fid ∉ used := by
  intro fams
  induction fams with
  | nil => intro fid rest h; exact absurd h (by simp [findFace])
  | cons f fs ih =>
    intro fid rest h
    unfold findFace at h
    split at h
    next id hsel =>
      split at h
      next hmem => exact ih _ _ h
      next hmem =>
        rw [Option.some.injEq, Prod.mk.injEq] at h
        rw [← h.1]
        exact hmem
    next hsel => exact ih _ _ h

/-- A face delivered by `selectFace` (family or fallback) is never on
`used`. -/
theorem selectFace_not_used (env : Env) (st : Styles) (used : List Nat) (text : List Char)
    (fams : List String) (fid : Nat) (rest : List String)
    (h : selectFace env st used text fams = some (fid, rest)) : fid ∉ used := by
  unfold selectFace at h
  split at h
  next r hf =>
    rw [Option.some.injEq] at h
    subst h
    exact findFace_not_used env _ used fams fid rest hf
  next hf =>
    split at h
    next hfb =>
      split at h
      next id hsf =>
        split at h
        next hmem => exact absurd h (by simp)
        next hmem =>
          rw [Option.some.injEq, Prod.mk.injEq] at h
          rw [← h.1]
          exact hmem
      next hsf => exact absurd h (by simp)
    next hfb => exact absurd h (by simp)

/-- C7 amended: every glyph the segment shaper adds through the shaping
primitive (nonzero glyph id) carries a face that was not on the `used`
stack at its production depth — both family selection and fallback
reject faces on the stack, and deeper levels only grow the stack.  Tofu
glyphs (glyph id 0) deliberately reuse the outermost used face and are
exempt. -/
theorem c7_no_face_reuse (env : Env) (st : Styles) (dir : Dir) :
    ∀ (fuel : Nat) (used : List Nat) (glyphs : List ShapedGlyph) (base : Nat)
      (text : List Char) (fams : List String),
      ∀ g ∈ shape_segment env st dir fuel used glyphs base text fams,
        g ∈ glyphs ∨ g.glyph_id = 0 ∨ g.face_id ∉ used := by
  intro fuel
  induction fuel with
  | zero =>
    intro used glyphs base text fams g hg
    exact Or.inl hg
  | succ n ih =>
    intro used glyphs base text fams g hg
    simp only [shape_segment] at hg
    by_cases hall : (text.all fun c => c == '\n' || c == '\t') = true
    · rw [if_pos hall] at hg
      exact Or.inl hg
    · rw [if_neg hall] at hg
      cases hsel : selectFace env st used text fams with
      | none =>
        rw [hsel] at hg
        cases hh : used.head? with
        | some fid =>
          rw [hh] at hg
          rcases List.mem_append.mp hg with hmem | hmem
          · exact Or.inl hmem
          · rcases List.mem_map.mp hmem with ⟨p, _, rfl⟩
            exact Or.inr (Or.inl rfl)
        | none =>
          rw [hh] at hg
          exact Or.inl hg
      | some r =>
        rw [hsel] at hg
        obtain ⟨face_id, rest⟩ := r
        have hface : face_id ∉ used := selectFace_not_used env st used text fams face_id rest hsel
        refine foldl_preserve
          (fun gs => ∀ g ∈ gs, g ∈ glyphs ∨ g.glyph_id = 0 ∨ g.face_id ∉ used)
          _ _ glyphs (fun g hg => Or.inl hg) ?_ g hg
        intro acc ch hch hacc g2 hg2
        cases ch with
        | glyph info =>
          rcases List.mem_append.mp hg2 with hmem | hmem
          · exact hacc g2 hmem
          · rcases List.mem_singleton.mp hmem with rfl
            exact Or.inr (Or.inr hface)
        | tofu fc lc pc nc =>
          rcases ih (used ++ [face_id]) _ _ _ _ g2 hg2 with hmem | hz | hnu
          · exact hacc g2 ((trimGlyphs_sublist _ _ acc).mem hmem)
          · exact Or.inr (Or.inl hz)
          · exact Or.inr (Or.inr fun hin => hnu (List.mem_append_left _ hin))

/-- C7 witness: the amended invariant at a concrete shaped glyph whose
face (1) is absent from the nonempty `used` stack `[9]`. -/
theorem c7_witness :
    (⟨1, 1, 1, 0, 0, true, 'a'⟩ : ShapedGlyph) ∈
        shape_segment env1 st1 .ltr 1 [9] [] 0 ['a'] ["f"] ∧
    ((⟨1, 1, 1, 0, 0, true, 'a'⟩ : ShapedGlyph) ∈ ([] : List ShapedGlyph) ∨
      (⟨1, 1, 1, 0, 0, true, 'a'⟩ : ShapedGlyph).glyph_id = 0 ∨
      (⟨1, 1, 1, 0, 0, true, 'a'⟩ : ShapedGlyph).face_id ∉ ([9] : List Nat)) :=
  ⟨by decide,
    c7_no_face_reuse env1 st1 .ltr 1 [9] [] 0 ['a'] ["f"] _ (by decide)⟩

/-! ## C1, C2, C10 counterexamples -/

/-- C1 counterexample: `reshape(run1, 1..2)` succeeds with a borrowed
slice, but shaping the sub-text "b" from scratch with the same styles
and direction yields a different glyph list — the borrowed glyph keeps
the parent-relative cluster 1 while the from-scratch glyph has cluster 0
(the runs are singletons, so direction-dependent index reversal cannot
reconcile them). -/
theorem c1_counterexample :
    (slice_safe_to_break run1 1 2).isSome = true ∧
    (reshape env1 3 run1 1 2).glyphs ≠
      (shape env1 3 (byteSlice run1.text 1 2) run1.styles run1.dir).glyphs ∧
    (reshape env1 3 run1 1 2).glyphs.map (·.cluster) = [1] ∧
    (shape env1 3 (byteSlice run1.text 1 2) run1.styles run1.dir).glyphs.map (·.cluster) = [0] := by
  decide

/-- C2 counterexample: the borrowed run returned by `reshape(run1, 1..2)`
has text "b" of byte length 1 but keeps the parent-relative cluster 1,
so its cluster does not lie in `[0, text.len())` for the run's own
text. -/
theorem c2_counterexample :
    (slice_safe_to_break run1 1 2).isSome = true ∧
    ¬ ∀ g ∈ (reshape env1 3 run1 1 2).glyphs,
        g.cluster < byteLen (reshape env1 3 run1 1 2).text := by
  decide

/-- C10 counterexample: `childR` is an RTL run produced by `reshape` (a
borrowed slice of `runR` over byte range 1..3) with two glyphs of
clusters 2 and 1; for `text_index = 1` (strictly between 0 and the text
length 2) the search finds the last glyph, the RTL increment pushes the
index to 2 = `glyphs.len()`, and the final `safe_to_break` read is out
of bounds. -/
theorem c10_counterexample :
    childR.dir = .rtl ∧
    childR.glyphs.map (·.cluster) = [2, 1] ∧
    0 < 1 ∧ 1 < byteLen childR.text ∧
    findStage childR 1 .right = .found 2 ∧
    childR.glyphs.length = 2 := by
  decide

/-! ## Binary search, outward scans, and the safe-to-break search -/

/-- A successful `get?` implies the index is in bounds. -/
theorem get?_some_lt {α : Type} {l : List α} {n : Nat} {a : α} (h : l.get? n = some a) :
    n < l.length := by
  by_contra hn
  rw [List.get?_eq_none.mpr (Nat.le_of_not_lt hn)] at h
  exact Option.noConfusion h

/-- Index `k` holds a glyph of cluster `t`. -/
def Matches (xs : List ShapedGlyph) (t k : Nat) : Prop :=
  ∃ g, xs.get? k = some g ∧ g.cluster = t

theorem Matches.lt_length {xs : List ShapedGlyph} {t k : Nat} (h : Matches xs t k) :
    k < xs.length := by
  obtain ⟨g, hg, _⟩ := h
  exact get?_some_lt hg

theorem Matches.getD_cluster {xs : List ShapedGlyph} {t k : Nat} (h : Matches xs t k) :
    (xs.getD k default).cluster = t := by
  obtain ⟨g, hg, hc⟩ := h
  rw [List.getD_eq_get?, hg]
  exact hc

theorem matches_of_getD {xs : List ShapedGlyph} {t k : Nat} (hk : k < xs.length)
    (h : (xs.getD k default).cluster = t) : Matches xs t k := by
  cases hg : xs.get? k with
  | none => rw [List.get?_eq_none] at hg; omega
  | some g =>
    refine ⟨g, hg, ?_⟩
    rw [List.getD_eq_get?, hg] at h
    exact h

theorem not_matches_of_get? {xs : List ShapedGlyph} {t k : Nat} {g : ShapedGlyph}
    (hg : xs.get? k = some g) (hc : g.cluster ≠ t) : ¬ Matches xs t k := by
  rintro ⟨g', hg', hc'⟩
  rw [hg, Option.some.injEq] at hg'
  subst hg'
  exact hc hc'

theorem not_matches_of_none {xs : List ShapedGlyph} {t k : Nat}
    (hg : xs.get? k = none) : ¬ Matches xs t k := by
  rintro ⟨g', hg', _⟩
  rw [hg] at hg'
  exact Option.noConfusion hg'

theorem matches_cons_zero {g : ShapedGlyph} {gs : List ShapedGlyph} {t : Nat} :
    Matches (g :: gs) t 0 ↔ g.cluster = t := by
  constructor
  · rintro ⟨g', hg', hc'⟩
    rw [show (g :: gs).get? 0 = some g from rfl, Option.some.injEq] at hg'
    subst hg'
    exact hc'
  · intro h
    exact ⟨g, rfl, h⟩

theorem matches_cons_succ {g : ShapedGlyph} {gs : List ShapedGlyph} {t k : Nat} :
    Matches (g :: gs) t (k + 1) ↔ Matches gs t k := by
  constructor
  · rintro ⟨g', hg', hc'⟩
    exact ⟨g', hg', hc'⟩
  · rintro ⟨g', hg', hc'⟩
    exact ⟨g', hg', hc'⟩

/-- Direction-dependent cluster monotonicity of a glyph list (the §3
invariant: non-decreasing for LTR, non-increasing for RTL). -/
def ClusterSorted : Dir → List ShapedGlyph → Prop
  | .ltr, xs => List.Pairwise (fun a b => a.cluster ≤ b.cluster) xs
  | .rtl, xs => List.Pairwise (fun a b => b.cluster ≤ a.cluster) xs

theorem sorted_le_ltr {xs : List ShapedGlyph} (hs : ClusterSorted .ltr xs) {i j : Nat}
    (hij : i < j) (hj : j < xs.length) :
    (xs.getD i default).cluster ≤ (xs.getD j default).cluster := by
  have hi : i < xs.length := Nat.lt_trans hij hj
  have := List.pairwise_iff_get.mp hs ⟨i, hi⟩ ⟨j, hj⟩ hij
  simpa [List.getD_eq_get?, List.get?_eq_get, hi, hj] using this

theorem sorted_le_rtl {xs : List ShapedGlyph} (hs : ClusterSorted .rtl xs) {i j : Nat}
    (hij : i < j) (hj : j < xs.length) :
    (xs.getD j default).cluster ≤ (xs.getD i default).cluster := by
  have hi : i < xs.length := Nat.lt_trans hij hj
  have := List.pairwise_iff_get.mp hs ⟨i, hi⟩ ⟨j, hj⟩ hij
  simpa [List.getD_eq_get?, List.get?_eq_get, hi, hj] using this

/-- In a direction-sorted list, the indices matching a given cluster
form a contiguous block. -/
theorem sorted_contig (dir : Dir) {xs : List ShapedGlyph} {t : Nat}
    (hs : ClusterSorted dir xs) {i j k : Nat} (hij : i ≤ j) (hjk : j ≤ k)
    (hi : Matches xs t i) (hk : Matches xs t k) : Matches xs t j := by
  have hklen := hk.lt_length
  have hjlen : j < xs.length := Nat.lt_of_le_of_lt hjk hklen
  refine matches_of_getD hjlen ?_
  rcases Nat.eq_or_lt_of_le hij with rfl | hij'
  · exact hi.getD_cluster
  rcases Nat.eq_or_lt_of_le hjk with rfl | hjk'
  · exact hk.getD_cluster
  cases dir with
  | ltr =>
    have h1 := sorted_le_ltr hs hij' hjlen
    have h2 := sorted_le_ltr hs hjk' hklen
    rw [hi.getD_cluster] at h1
    rw [hk.getD_cluster] at h2
    omega
  | rtl =>
    have h1 := sorted_le_rtl hs hij' hjlen
    have h2 := sorted_le_rtl hs hjk' hklen
    rw [hi.getD_cluster] at h1
    rw [hk.getD_cluster] at h2
    omega

theorem swap_eq_eq_iff (o : Ordering) : o.swap = .eq ↔ o = .eq := by
  cases o <;> simp [Ordering.swap]

theorem swap_eq_gt_iff (o : Ordering) : o.swap = .gt ↔ o = .lt := by
  cases o <;> simp [Ordering.swap]

theorem swap_eq_lt_iff (o : Ordering) : o.swap = .lt ↔ o = .gt := by
  cases o <;> simp [Ordering.swap]

theorem clusterCmp_true (t : Nat) (g : ShapedGlyph) :
    clusterCmp true t g = compare g.cluster t := rfl

theorem clusterCmp_false (t : Nat) (g : ShapedGlyph) :
    clusterCmp false t g = (compare g.cluster t).swap := rfl

theorem clusterCmp_eq_iff (b : Bool) (t : Nat) (g : ShapedGlyph) :
    clusterCmp b t g = .eq ↔ g.cluster = t := by
  cases b with
  | true => rw [clusterCmp_true]; exact Nat.compare_eq_eq
  | false => rw [clusterCmp_false, swap_eq_eq_iff]; exact Nat.compare_eq_eq

/-- Direction-sorted clusters make the search comparator monotone over
indices. -/
theorem clusterCmp_mono (dir : Dir) (xs : List ShapedGlyph) (t : Nat)
    (hs : ClusterSorted dir xs) :
    ∀ i j : Nat, i < j → j < xs.length →
      (clusterCmp dir.is_positive t (xs.getD i default) = .gt →
        clusterCmp dir.is_positive t (xs.getD j default) = .gt) ∧
      (clusterCmp dir.is_positive t (xs.getD j default) = .lt →
        clusterCmp dir.is_positive t (xs.getD i default) = .lt) := by
  intro i j hij hj
  cases dir with
  | ltr =>
    have hle := sorted_le_ltr hs hij hj
    simp only [Dir.is_positive, clusterCmp_true, Nat.compare_eq_gt, Nat.compare_eq_lt]
    omega
  | rtl =>
    have hle := sorted_le_rtl hs hij hj
    simp only [Dir.is_positive, clusterCmp_false, swap_eq_gt_iff, swap_eq_lt_iff,
      Nat.compare_eq_lt, Nat.compare_eq_gt]
    omega

/-- Soundness of the binary search: a success returns an in-window index
on which the comparator answers `.eq`. -/
theorem bsIter_sound (f : ShapedGlyph → Ordering) (xs : List ShapedGlyph) :
    ∀ (gas left right idx : Nat), bsIter f xs gas left right = some idx →
      f (xs.getD idx default) = .eq ∧ left ≤ idx ∧ idx < right := by
  intro gas
  induction gas with
  | zero => intro left right idx h; exact absurd h (by simp [bsIter])
  | succ n ih =>
    intro left right idx h
    unfold bsIter at h
    split at h
    next hlr =>
      split at h
      next hcmp =>
        obtain ⟨h1, h2, h3⟩ := ih _ _ _ h
        exact ⟨h1, by omega, h3⟩
      next hcmp =>
        obtain ⟨h1, h2, h3⟩ := ih _ _ _ h
        exact ⟨h1, h2, by omega⟩
      next hcmp =>
        rw [Option.some.injEq] at h
        subst h
        exact ⟨hcmp, by omega, by omega⟩
    next hlr => exact absurd h (by simp)

/-- Completeness of the binary search over a monotone comparator: a
window containing a matching index yields a success. -/
theorem bsIter_complete (f : ShapedGlyph → Ordering) (xs : List ShapedGlyph)
    (hmono : ∀ i j : Nat, i < j → j < xs.length →
      (f (xs.getD i default) = .gt → f (xs.getD j default) = .gt) ∧
      (f (xs.getD j default) = .lt → f (xs.getD i default) = .lt)) :
    ∀ (gas left right : Nat), right - left ≤ gas → right ≤ xs.length →
      (∃ j, left ≤ j ∧ j < right ∧ f (xs.getD j default) = .eq) →
      (bsIter f xs gas left right).isSome = true := by
  intro gas
  induction gas with
  | zero =>
    intro left right hgas hlen hex
    obtain ⟨j, hj1, hj2, _⟩ := hex
    omega
  | succ n ih =>
    intro left right hgas hlen hex
    obtain ⟨j, hj1, hj2, hj3⟩ := hex
    have hlr : left < right := by omega
    unfold bsIter
    rw [if_pos hlr]
    cases hcmp : f (xs.getD (left + (right - left) / 2) default) with
    | lt =>
      apply ih (left + (right - left) / 2 + 1) right (by omega) hlen
      refine ⟨j, ?_, hj2, hj3⟩
      by_contra hjle
      rcases Nat.lt_or_ge j (left + (right - left) / 2) with hj | hj
      · have := (hmono j (left + (right - left) / 2) hj (by omega)).2 hcmp
        rw [this] at hj3
        exact Ordering.noConfusion hj3
      · have : j = left + (right - left) / 2 := by omega
        rw [this, hcmp] at hj3
        exact Ordering.noConfusion hj3
    | gt =>
      apply ih left (left + (right - left) / 2) (by omega) (by omega)
      refine ⟨j, hj1, ?_, hj3⟩
      rcases Nat.lt_or_ge j (left + (right - left) / 2) with hj | hj
      · exact hj
      · exfalso
        rcases Nat.eq_or_lt_of_le hj with hj' | hj'
        · rw [hj'] at hcmp
          rw [hj3] at hcmp
          exact Ordering.noConfusion hcmp
        · have := (hmono _ j hj' (by omega)).1 hcmp
          rw [this] at hj3
          exact Ordering.noConfusion hj3
    | eq => rfl

/-- Characterization of the left outward scan: the result is at most the
start, matches the target cluster whenever the start does, and its left
neighbor (if any) does not match. -/
theorem scanLeft_spec (xs : List ShapedGlyph) (t : Nat) :
    ∀ idx, scanLeft xs t idx ≤ idx ∧
      (Matches xs t idx → Matches xs t (scanLeft xs t idx)) ∧
      (scanLeft xs t idx = 0 ∨ ¬ Matches xs t (scanLeft xs t idx - 1)) := by
  intro idx
  induction idx with
  | zero => exact ⟨Nat.le_refl _, fun h => h, Or.inl rfl⟩
  | succ n ih =>
    unfold scanLeft
    cases hg : xs.get? n with
    | some g =>
      by_cases hc : g.cluster = t
      · simp only [if_pos hc]
        exact ⟨Nat.le_succ_of_le ih.1, fun _ => ih.2.1 ⟨g, hg, hc⟩, ih.2.2⟩
      · simp only [if_neg hc]
        exact ⟨Nat.le_refl _, fun h => h, Or.inr (not_matches_of_get? hg hc)⟩
    | none =>
      exact ⟨Nat.le_refl _, fun h => h, Or.inr (not_matches_of_none hg)⟩

/-- Characterization of the right outward scan body under sufficient
gas. -/
theorem scanRightGo_spec (xs : List ShapedGlyph) (t : Nat) :
    ∀ gas idx, xs.length ≤ gas + idx →
      idx ≤ scanRightGo xs t gas idx ∧
      (Matches xs t idx → Matches xs t (scanRightGo xs t gas idx)) ∧
      ¬ Matches xs t (scanRightGo xs t gas idx + 1) := by
  intro gas
  induction gas with
  | zero =>
    intro idx hlen
    refine ⟨Nat.le_refl _, fun h => h, not_matches_of_none ?_⟩
    rw [List.get?_eq_none]
    show xs.length ≤ idx + 1
    omega
  | succ n ih =>
    intro idx hlen
    unfold scanRightGo
    cases hg : xs.get? (idx + 1) with
    | some g =>
      by_cases hc : g.cluster = t
      · simp only [if_pos hc]
        have hlt := get?_some_lt hg
        have hrec := ih (idx + 1) (by omega)
        exact ⟨Nat.le_trans (Nat.le_succ _) hrec.1, fun _ => hrec.2.1 ⟨g, hg, hc⟩, hrec.2.2⟩
      · simp only [if_neg hc]
        exact ⟨Nat.le_refl _, fun h => h, not_matches_of_get? hg hc⟩
    | none =>
      exact ⟨Nat.le_refl _, fun h => h, not_matches_of_none hg⟩

/-- The right outward scan at full gas. -/
theorem scanRight_spec (xs : List ShapedGlyph) (t idx : Nat) :
    idx ≤ scanRight xs t idx ∧
    (Matches xs t idx → Matches xs t (scanRight xs t idx)) ∧
    ¬ Matches xs t (scanRight xs t idx + 1) :=
  scanRightGo_spec xs t xs.length idx (by omega)

/-- The smallest index holding the target cluster (spec-side formulation
of "the outermost glyph of the matching cluster on the left"). -/
def leftmostIdx : List ShapedGlyph → Nat → Option Nat
  | [], _ => none
  | g :: gs, t =>
    if g.cluster = t then some 0 else (leftmostIdx gs t).map (· + 1)

/-- The largest index holding the target cluster. -/
def rightmostIdx : List ShapedGlyph → Nat → Option Nat
  | [], _ => none
  | g :: gs, t =>
    match rightmostIdx gs t with
    | some k => some (k + 1)
    | none => if g.cluster = t then some 0 else none

theorem leftmostIdx_spec (t : Nat) : ∀ xs : List ShapedGlyph,
    (leftmostIdx xs t = none → ∀ k, ¬ Matches xs t k) ∧
    (∀ k, leftmostIdx xs t = some k → Matches xs t k ∧ ∀ j, j < k → ¬ Matches xs t j) := by
  intro xs
  induction xs with
  | nil =>
    exact ⟨fun _ k => not_matches_of_none (by simp), fun k h => absurd h (by simp [leftmostIdx])⟩
  | cons g gs ih =>
    constructor
    · intro h k
      unfold leftmostIdx at h
      by_cases hc : g.cluster = t
      · rw [if_pos hc] at h
        exact absurd h (by simp)
      · rw [if_neg hc] at h
        have hnone : leftmostIdx gs t = none := by
          cases hh : leftmostIdx gs t with
          | none => rfl
          | some k' => rw [hh] at h; exact absurd h (by simp)
        cases k with
        | zero => exact fun hm => hc (matches_cons_zero.mp hm)
        | succ k => exact fun hm => ih.1 hnone k (matches_cons_succ.mp hm)
    · intro k h
      unfold leftmostIdx at h
      by_cases hc : g.cluster = t
      · rw [if_pos hc, Option.some.injEq] at h
        subst h
        exact ⟨matches_cons_zero.mpr hc, fun j hj => absurd hj (Nat.not_lt_zero _)⟩
      · rw [if_neg hc] at h
        cases hh : leftmostIdx gs t with
        | none => rw [hh] at h; exact absurd h (by simp)
        | some k' =>
          rw [hh, Option.map_some', Option.some.injEq] at h
          subst h
          obtain ⟨hm, hmin⟩ := ih.2 k' hh
          refine ⟨matches_cons_succ.mpr hm, ?_⟩
          intro j hj
          cases j with
          | zero => exact fun hm0 => hc (matches_cons_zero.mp hm0)
          | succ j => exact fun hmj => hmin j (by omega) (matches_cons_succ.mp hmj)

theorem rightmostIdx_spec (t : Nat) : ∀ xs : List ShapedGlyph,
    (rightmostIdx xs t = none → ∀ k, ¬ Matches xs t k) ∧
    (∀ k, rightmostIdx xs t = some k → Matches xs t k ∧ ∀ j, k < j → ¬ Matches xs t j) := by
  intro xs
  induction xs with
  | nil =>
    exact ⟨fun _ k => not_matches_of_none (by simp), fun k h => absurd h (by simp [rightmostIdx])⟩
  | cons g gs ih =>
    constructor
    · intro h k
      unfold rightmostIdx at h
      cases hh : rightmostIdx gs t with
      | some k' => rw [hh] at h; exact absurd h (by simp)
      | none =>
        rw [hh] at h
        by_cases hc : g.cluster = t
        · rw [if_pos hc] at h
          exact absurd h (by simp)
        · cases k with
          | zero => exact fun hm => hc (matches_cons_zero.mp hm)
          | succ k => exact fun hm => ih.1 hh k (matches_cons_succ.mp hm)
    · intro k h
      unfold rightmostIdx at h
      cases hh : rightmostIdx gs t with
      | some k' =>
        rw [hh, Option.some.injEq] at h
        subst h
        obtain ⟨hm, hmax⟩ := ih.2 k' hh
        refine ⟨matches_cons_succ.mpr hm, ?_⟩
        intro j hj
        cases j with
        | zero => exact fun _ => absurd hj (by omega)
        | succ j => exact fun hmj => hmax j (by omega) (matches_cons_succ.mp hmj)
      | none =>
        rw [hh] at h
        by_cases hc : g.cluster = t
        · rw [if_pos hc, Option.some.injEq] at h
          subst h
          refine ⟨matches_cons_zero.mpr hc, ?_⟩
          intro j hj
          cases j with
          | zero => exact fun _ => absurd hj (by omega)
          | succ j => exact fun hmj => ih.1 hh j (matches_cons_succ.mp hmj)
        · rw [if_neg hc] at h
          exact absurd h (by simp)

/-- The spec's description of `find_safe_to_break` (C9): early edge
returns at the text ends; otherwise find the outermost glyph of the
matching cluster on the requested side (leftmost for `Side::Left`,
rightmost for `Side::Right`), add one for RTL, and accept iff that
glyph's `safe_to_break` is set; `none` when no glyph carries the
cluster. -/
def find_safe_to_break_spec (run : ShapedText) (text_index : Nat) (towards : Side) :
    Option Nat :=
  if text_index = 0 then some (if run.dir.is_positive then 0 else run.glyphs.length)
  else if text_index = byteLen run.text then
    some (if run.dir.is_positive then run.glyphs.length else 0)
  else
    match (match towards with
           | .left => leftmostIdx run.glyphs text_index
           | .right => rightmostIdx run.glyphs text_index) with
    | none => none
    | some j =>
      if (run.glyphs.getD (if run.dir.is_positive then j else j + 1) default).safe_to_break
      then some (if run.dir.is_positive then j else j + 1)
      else none

/-- On a run whose clusters are direction-monotone, the panic-collapsing
model of `find_safe_to_break` agrees with the spec-side description
(helper for the C9 theorem, which accounts for the panic
separately). -/
theorem find_eq_spec_of_sorted (run : ShapedText)
    (hs : ClusterSorted run.dir run.glyphs) (text_index : Nat) (towards : Side) :
    find_safe_to_break run text_index towards = find_safe_to_break_spec run text_index towards := by
  unfold find_safe_to_break findStage find_safe_to_break_spec
  by_cases h0 : text_index = 0
  · simp only [if_pos h0]
  by_cases hL : text_index = byteLen run.text
  · simp only [if_neg h0, if_pos hL]
  simp only [if_neg h0, if_neg hL]
  by_cases hex : ∃ k, Matches run.glyphs text_index k
  · obtain ⟨k, hk⟩ := hex
    have hcomp :
        (bsIter (clusterCmp run.dir.is_positive text_index) run.glyphs
          run.glyphs.length 0 run.glyphs.length).isSome = true := by
      apply bsIter_complete _ _ (clusterCmp_mono run.dir run.glyphs text_index hs) _ _ _
        (by omega) (Nat.le_refl _)
      exact ⟨k, Nat.zero_le _, hk.lt_length,
        (clusterCmp_eq_iff _ _ _).mpr hk.getD_cluster⟩
    rw [Option.isSome_iff_exists] at hcomp
    obtain ⟨idx0, hb⟩ := hcomp
    have hb' : binary_search_by (clusterCmp run.dir.is_positive text_index) run.glyphs =
        some idx0 := hb
    obtain ⟨heq, -, hlt⟩ := bsIter_sound _ _ _ _ _ _ hb
    have hm0 : Matches run.glyphs text_index idx0 :=
      matches_of_getD hlt ((clusterCmp_eq_iff _ _ _).mp heq)
    rw [hb']
    cases towards with
    | left =>
      obtain ⟨hle, hmat, hstop⟩ := scanLeft_spec run.glyphs text_index idx0
      have hmr := hmat hm0
      have hlm : ∃ lo, leftmostIdx run.glyphs text_index = some lo := by
        cases hh : leftmostIdx run.glyphs text_index with
        | none => exact absurd hmr ((leftmostIdx_spec text_index run.glyphs).1 hh _)
        | some lo => exact ⟨lo, rfl⟩
      obtain ⟨lo, hlo⟩ := hlm
      obtain ⟨hlom, hlomin⟩ := (leftmostIdx_spec text_index run.glyphs).2 lo hlo
      have hr_eq : scanLeft run.glyphs text_index idx0 = lo := by
        have h1 : lo ≤ scanLeft run.glyphs text_index idx0 := by
          by_contra hcon
          exact hlomin _ (by omega) hmr
        rcases Nat.eq_or_lt_of_le h1 with h' | h'
        · omega
        · exfalso
          rcases hstop with h0' | hnm
          · omega
          · exact hnm (sorted_contig run.dir hs (by omega) (by omega) hlom hm0)
      simp only [hr_eq, hlo]
    | right =>
      obtain ⟨hle, hmat, hstop⟩ := scanRight_spec run.glyphs text_index idx0
      have hmr := hmat hm0
      have hrm : ∃ hi, rightmostIdx run.glyphs text_index = some hi := by
        cases hh : rightmostIdx run.glyphs text_index with
        | none => exact absurd hmr ((rightmostIdx_spec text_index run.glyphs).1 hh _)
        | some hi => exact ⟨hi, rfl⟩
      obtain ⟨hi, hhi⟩ := hrm
      obtain ⟨hhim, hhimax⟩ := (rightmostIdx_spec text_index run.glyphs).2 hi hhi
      have hr_eq : scanRight run.glyphs text_index idx0 = hi := by
        have h1 : scanRight run.glyphs text_index idx0 ≤ hi := by
          by_contra hcon
          exact hhimax _ (by omega) hmr
        rcases Nat.eq_or_lt_of_le h1 with h' | h'
        · omega
        · exact absurd (sorted_contig run.dir hs (by omega) (by omega) hm0 hhim) hstop
      simp only [hr_eq, hhi]
  · have hb : binary_search_by (clusterCmp run.dir.is_positive text_index) run.glyphs =
        none := by
      cases hb' : binary_search_by (clusterCmp run.dir.is_positive text_index) run.glyphs with
      | none => rfl
      | some idx0 =>
        obtain ⟨heq, -, hlt⟩ := bsIter_sound _ _ _ _ _ _ hb'
        exact absurd ⟨idx0, matches_of_getD hlt ((clusterCmp_eq_iff _ _ _).mp heq)⟩ hex
    rw [hb]
    cases towards with
    | left =>
      have hlm : leftmostIdx run.glyphs text_index = none := by
        cases hh : leftmostIdx run.glyphs text_index with
        | none => rfl
        | some lo =>
          exact absurd ⟨lo, ((leftmostIdx_spec text_index run.glyphs).2 lo hh).1⟩ hex
      simp only [hlm]
    | right =>
      have hrm : rightmostIdx run.glyphs text_index = none := by
        cases hh : rightmostIdx run.glyphs text_index with
        | none => rfl
        | some hi =>
          exact absurd ⟨hi, ((rightmostIdx_spec text_index run.glyphs).2 hi hh).1⟩ hex
      simp only [hrm]

/-- The collapsing model is the faithful one with the panic (`none`)
flattened into a `none` return. -/
theorem find_safe_to_break_eq_join (run : ShapedText) (text_index : Nat) (towards : Side) :
    find_safe_to_break run text_index towards =
      (find_safe_to_break_checked run text_index towards).join := by
  unfold find_safe_to_break find_safe_to_break_checked
  cases findStage run text_index towards with
  | edge i => rfl
  | «nomatch» => rfl
  | found i =>
    show (if (run.glyphs.getD i default).safe_to_break then some i else none) =
      (if i < run.glyphs.length then
        some (if (run.glyphs.getD i default).safe_to_break then some i else none)
      else none).join
    by_cases h : i < run.glyphs.length
    · rw [if_pos h]
      rfl
    · rw [if_neg h]
      rw [List.getD_eq_default _ _ (Nat.le_of_not_lt h)]
      rfl

/-- C9 counterexample: a direction-monotone run on which the claimed
behavior is a `None` return while the final `self.glyphs[idx]` read is
out of bounds — the Rust code panics instead of returning `None`.
`childR` is the borrowed RTL sub-run of C10's counterexample; at
`text_index 1, Side::Right` the scan lands on index 1 and the RTL
increment reads `glyphs[2]` with only 2 glyphs present. -/
theorem c9_counterexample :
    childR.dir = .rtl ∧
    ClusterSorted .rtl childR.glyphs ∧
    findStage childR 1 .right = .found 2 ∧
    childR.glyphs.length = 2 ∧
    find_safe_to_break_checked childR 1 .right = none ∧
    find_safe_to_break_spec childR 1 .right = none := by
  refine ⟨by decide, ?_, by decide, by decide, by decide, by decide⟩
  show List.Pairwise (fun a b => b.cluster ≤ a.cluster) childR.glyphs
  decide

/-- C9 (amended): on a run whose clusters are direction-monotone (the
documented §3 invariant, which makes the Rust binary search meaningful)
and on which the final indexed read stays in bounds — the RTL `+1` can
step past the end on borrowed runs, a panic, see the counterexample and
C10 — `find_safe_to_break` returns (without panicking) exactly what the
spec describes: edge returns at `text_index = 0` / `text.len()`,
otherwise binary search by cluster (comparator reversed for RTL),
outward scan to the outermost matching glyph on the requested side,
`+1` for RTL, and acceptance iff that glyph is safe to break, with
`none` when no glyph has the cluster. -/
theorem c9_panic_guarded_spec (run : ShapedText)
    (hs : ClusterSorted run.dir run.glyphs) (text_index : Nat) (towards : Side)
    (hin : ∀ i, findStage run text_index towards = .found i → i < run.glyphs.length) :
    find_safe_to_break_checked run text_index towards =
      some (find_safe_to_break_spec run text_index towards) := by
  have hfind := find_eq_spec_of_sorted run hs text_index towards
  rw [← hfind]
  unfold find_safe_to_break find_safe_to_break_checked
  cases hst : findStage run text_index towards with
  | edge i => rfl
  | «nomatch» => rfl
  | found i =>
    have hlt := hin i hst
    show (if i < run.glyphs.length then
        some (if (run.glyphs.getD i default).safe_to_break then some i else none)
      else none) =
      some (if (run.glyphs.getD i default).safe_to_break then some i else none)
    rw [if_pos hlt]

/-- C9 witness: at a concrete sorted in-bounds run, index, and side, the
faithful search returns (no panic) and agrees with the spec. -/
theorem c9_witness :
    find_safe_to_break_checked run1 1 .left = some (find_safe_to_break_spec run1 1 .left) ∧
    find_safe_to_break_checked run1 1 .left = some (some 1) :=
  ⟨c9_panic_guarded_spec run1 (by
      show List.Pairwise (fun a b => a.cluster ≤ b.cluster) run1.glyphs
      decide) 1 .left
      (by
        intro i hi
        have h2 : FindResult.found 1 = .found i := hi
        injection h2 with h3
        rw [← h3]
        decide),
    by decide⟩

/-- C10 amended: for an RTL run whose glyph list (when nonempty) ends
with a cluster-0 glyph — as holds for runs shaped from scratch, where
the visually last RTL glyph covers the first source cluster — every
`.found` index produced by `findStage` for a `text_index` strictly
inside the text is in bounds: the RTL increment by one cannot pass the
end, because the matched cluster equals `text_index > 0` while the last
glyph's cluster is 0. -/
theorem c10_rtl_read_in_bounds (run : ShapedText)
    (hdir : run.dir = .rtl)
    (hlast : run.glyphs = [] ∨ (run.glyphs.map (·.cluster)).getLast? = some 0)
    (text_index : Nat) (h0 : 0 < text_index) (hL : text_index < byteLen run.text)
    (towards : Side) (i : Nat)
    (hf : findStage run text_index towards = .found i) :
    i < run.glyphs.length := by
  unfold findStage at hf
  rw [if_neg (by omega), if_neg (by omega)] at hf
  split at hf
  next hb => exact absurd hf (by simp)
  next idx0 hb =>
    obtain ⟨heq, -, hlt⟩ := bsIter_sound _ _ _ _ _ _ hb
    have hm0 : Matches run.glyphs text_index idx0 :=
      matches_of_getD hlt ((clusterCmp_eq_iff _ _ _).mp heq)
    have hlast' : ∀ g : ShapedGlyph,
        run.glyphs.get? (run.glyphs.length - 1) = some g → g.cluster = 0 := by
      intro g hg
      rcases hlast with hnil | hmap
      · rw [hnil] at hg
        exact absurd hg (by simp)
      · rw [List.getLast?_map, List.getLast?_eq_get?, hg, Option.map_some',
          Option.some.injEq] at hmap
        exact hmap
    have key : ∀ r : Nat, Matches run.glyphs text_index r → r + 1 < run.glyphs.length := by
      intro r hmr
      have hrlt := hmr.lt_length
      rcases Nat.lt_or_ge (r + 1) run.glyphs.length with h | h
      · exact h
      · exfalso
        obtain ⟨g, hg, hc⟩ := hmr
        rw [show r = run.glyphs.length - 1 by omega] at hg
        have := hlast' g hg
        omega
    rw [hdir] at hf
    cases towards with
    | left =>
      simp only [Dir.is_positive, Bool.false_eq_true, if_false, FindResult.found.injEq] at hf
      obtain ⟨-, hmat, -⟩ := scanLeft_spec run.glyphs text_index idx0
      have := key _ (hmat hm0)
      omega
    | right =>
      simp only [Dir.is_positive, Bool.false_eq_true, if_false, FindResult.found.injEq] at hf
      obtain ⟨-, hmat, -⟩ := scanRight_spec run.glyphs text_index idx0
      have := key _ (hmat hm0)
      omega

/-- C10 witness: the in-bounds conclusion at a concrete RTL run shaped
from scratch (clusters 2, 1, 0). -/
theorem c10_witness :
    findStage runR 1 .right = .found 2 ∧ (2 : Nat) < runR.glyphs.length :=
  ⟨by decide,
    c10_rtl_read_in_bounds runR (by decide) (by decide) 1 (by decide) (by decide)
      .right 2 (by decide)⟩

/-! ## Byte-offset utilities -/

theorem byteLen_nil : byteLen [] = 0 := rfl

theorem byteLen_cons (c : Char) (t : List Char) :
    byteLen (c :: t) = c.utf8Size + byteLen t := by
  simp [byteLen]

/-- `byteTake` keeps at most `n` bytes. -/
theorem byteLen_byteTake_le : ∀ (l : List Char) (n : Nat), byteLen (byteTake l n) ≤ n := by
  intro l
  induction l with
  | nil => intro n; cases n <;> simp [byteTake, byteLen_nil]
  | cons c t ih =>
    intro n
    cases n with
    | zero => simp [byteTake, byteLen_nil]
    | succ n' =>
      unfold byteTake
      by_cases hsz : c.utf8Size ≤ n' + 1
      · rw [if_pos hsz, byteLen_cons]
        have := ih (n' + 1 - c.utf8Size)
        omega
      · rw [if_neg hsz]
        simp [byteLen_nil]

/-- The byte slice keeps at most `b - a` bytes. -/
theorem byteLen_byteSlice_le (t : List Char) (a b : Nat) :
    byteLen (byteSlice t a b) ≤ b - a :=
  byteLen_byteTake_le _ _

/-- A char boundary of a byte-take is a boundary of the whole text. -/
theorem charAtByte_byteTake : ∀ (l : List Char) (m n : Nat) (ch : Char),
    charAtByte (byteTake l m) n = some ch → charAtByte l n = some ch := by
  intro l
  induction l with
  | nil => intro m n ch h; cases m <;> simp [byteTake, charAtByte] at h
  | cons c t ih =>
    intro m n ch h
    cases m with
    | zero => simp [byteTake, charAtByte] at h
    | succ m' =>
      unfold byteTake at h
      by_cases hsz : c.utf8Size ≤ m' + 1
      · rw [if_pos hsz] at h
        unfold charAtByte at h ⊢
        by_cases hn : n = 0
        · rw [if_pos hn] at h ⊢
          exact h
        · rw [if_neg hn] at h ⊢
          by_cases hlt : n < c.utf8Size
          · rw [if_pos hlt] at h
            exact absurd h (by simp)
          · rw [if_neg hlt] at h ⊢
            exact ih _ _ _ h
      · rw [if_neg hsz] at h
        simp [charAtByte] at h

/-- A char boundary of a byte-drop translates by the drop offset, as
long as the drop offset is itself a char boundary. -/
theorem charAtByte_byteDrop : ∀ (l : List Char) (a n : Nat) (ca ch : Char),
    charAtByte l a = some ca → charAtByte (byteDrop l a) n = some ch →
    charAtByte l (a + n) = some ch := by
  intro l
  induction l with
  | nil => intro a n ca ch h1 h2; simp [charAtByte] at h1
  | cons c t ih =>
    intro a n ca ch h1 h2
    cases a with
    | zero =>
      simpa using h2
    | succ a' =>
      unfold charAtByte at h1
      rw [if_neg (by omega)] at h1
      by_cases hlt : a' + 1 < c.utf8Size
      · rw [if_pos hlt] at h1
        exact absurd h1 (by simp)
      · rw [if_neg hlt] at h1
        unfold byteDrop at h2
        unfold charAtByte
        rw [if_neg (by omega), if_neg (by omega)]
        have harg : a' + 1 + n - c.utf8Size = (a' + 1 - c.utf8Size) + n := by omega
        rw [harg]
        exact ih _ _ _ _ h1 h2

/-- A char boundary of a byte slice translates by the slice start. -/
theorem charAtByte_byteSlice {t : List Char} {a b n : Nat} {ca ch : Char}
    (ha : charAtByte t a = some ca) (h : charAtByte (byteSlice t a b) n = some ch) :
    charAtByte t (a + n) = some ch :=
  charAtByte_byteDrop t a n ca ch ha (charAtByte_byteTake _ _ _ _ h)

/-- Every entry of `char_indices` (shifted by `off`) is an in-bounds
char boundary carrying its char. -/
theorem charIndicesFrom_spec : ∀ (t : List Char) (off : Nat),
    ∀ p ∈ charIndicesFrom off t,
      off ≤ p.1 ∧ p.1 - off < byteLen t ∧ charAtByte t (p.1 - off) = some p.2 := by
  intro t
  induction t with
  | nil => intro off p hp; simp [charIndicesFrom] at hp
  | cons c t' ih =>
    intro off p hp
    rcases List.mem_cons.mp hp with rfl | hp'
    · refine ⟨Nat.le_refl _, ?_, ?_⟩
      · rw [byteLen_cons]
        have := c.utf8Size_pos
        omega
      · simp [charAtByte]
    · obtain ⟨h1, h2, h3⟩ := ih (off + c.utf8Size) p hp'
      have hsz := c.utf8Size_pos
      refine ⟨by omega, ?_, ?_⟩
      · rw [byteLen_cons]
        omega
      · unfold charAtByte
        rw [if_neg (by omega), if_neg (by omega)]
        have harg : p.1 - off - c.utf8Size = p.1 - (off + c.utf8Size) := by omega
        rw [harg]
        exact h3

/-- `char_indices` entries are in-bounds char boundaries. -/
theorem char_indices_spec (t : List Char) :
    ∀ p ∈ char_indices t, p.1 < byteLen t ∧ charAtByte t p.1 = some p.2 := by
  intro p hp
  obtain ⟨h1, h2, h3⟩ := charIndicesFrom_spec t 0 p hp
  rw [Nat.sub_zero] at h2 h3
  exact ⟨h2, h3⟩

/-! ## Provenance of chunk fields -/

/-- All cluster fields of the chunks come from the state or from the
info list: `firstCluster`/`lastCluster` are clusters of run members,
`prevCluster`/`nextCluster` are the state's `prev` or neighbor info
clusters. -/
theorem chunksAux_fields (P : Nat → Prop) :
    ∀ (infos : List RawInfo) (prev : Option Nat) (orun : Option (Nat × Nat)),
      (∀ p, prev = some p → P p) →
      (∀ fc lc, orun = some (fc, lc) → P fc ∧ P lc) →
      (∀ info ∈ infos, P info.cluster) →
      ∀ ch ∈ chunksAux prev orun infos,
        (∀ info, ch = Chunk.glyph info → P info.cluster) ∧
        (∀ fc lc pc nc, ch = Chunk.tofu fc lc pc nc →
          P fc ∧ P lc ∧ (∀ x, pc = some x → P x) ∧ (∀ x, nc = some x → P x)) := by
  intro infos
  induction infos with
  | nil =>
    intro prev orun hprev horun hinfos ch hch
    cases orun with
    | none => simp [chunksAux] at hch
    | some r =>
      obtain ⟨fc, lc⟩ := r
      rw [show chunksAux prev (some (fc, lc)) [] = [Chunk.tofu fc lc prev none] from rfl,
        List.mem_singleton] at hch
      subst hch
      refine ⟨fun info h => Chunk.noConfusion h, ?_⟩
      intro fc' lc' pc' nc' h
      rw [Chunk.tofu.injEq] at h
      obtain ⟨e1, e2, e3, e4⟩ := h
      obtain ⟨h1, h2⟩ := horun fc lc rfl
      refine ⟨e1 ▸ h1, e2 ▸ h2, fun x hx => hprev x (by rw [e3]; exact hx), ?_⟩
      intro x hx
      rw [← e4] at hx
      exact Option.noConfusion hx
  | cons info rest ih =>
    intro prev orun hprev horun hinfos ch hch
    have hPc : P info.cluster := hinfos info (List.mem_cons_self _ _)
    have hinfos' : ∀ i ∈ rest, P i.cluster :=
      fun i hi => hinfos i (List.mem_cons_of_mem _ hi)
    cases orun with
    | none =>
      by_cases hz : info.glyph_id = 0
      · rw [show chunksAux prev none (info :: rest) =
            chunksAux prev (some (info.cluster, info.cluster)) rest by
            simp [chunksAux, hz]] at hch
        exact ih prev _ hprev
          (fun fc lc h => by
            rw [Option.some.injEq, Prod.mk.injEq] at h
            exact ⟨h.1 ▸ hPc, h.2 ▸ hPc⟩)
          hinfos' ch hch
      · rw [show chunksAux prev none (info :: rest) =
            Chunk.glyph info :: chunksAux (some info.cluster) none rest by
            simp [chunksAux, hz]] at hch
        rcases List.mem_cons.mp hch with rfl | hch'
        · refine ⟨?_, fun fc lc pc nc h => Chunk.noConfusion h⟩
          intro info' h
          rw [Chunk.glyph.injEq] at h
          exact h ▸ hPc
        · exact ih (some info.cluster) none
            (fun p hp => by rw [Option.some.injEq] at hp; exact hp ▸ hPc)
            (fun fc lc h => Option.noConfusion h) hinfos' ch hch'
    | some r =>
      obtain ⟨fc, lc⟩ := r
      obtain ⟨hPfc, hPlc⟩ := horun fc lc rfl
      by_cases hz : info.glyph_id = 0
      · rw [show chunksAux prev (some (fc, lc)) (info :: rest) =
            chunksAux prev (some (fc, info.cluster)) rest by
            simp [chunksAux, hz]] at hch
        exact ih prev _ hprev
          (fun fc' lc' h => by
            rw [Option.some.injEq, Prod.mk.injEq] at h
            exact ⟨h.1 ▸ hPfc, h.2 ▸ hPc⟩)
          hinfos' ch hch
      · rw [show chunksAux prev (some (fc, lc)) (info :: rest) =
            Chunk.tofu fc lc prev (some info.cluster) ::
              Chunk.glyph info :: chunksAux (some info.cluster) none rest by
            simp [chunksAux, hz]] at hch
        rcases List.mem_cons.mp hch with rfl | hch'
        · refine ⟨fun info' h => Chunk.noConfusion h, ?_⟩
          intro fc' lc' pc' nc' h
          rw [Chunk.tofu.injEq] at h
          obtain ⟨e1, e2, e3, e4⟩ := h
          refine ⟨e1 ▸ hPfc, e2 ▸ hPlc,
            fun x hx => hprev x (by rw [e3]; exact hx), ?_⟩
          intro x hx
          rw [← e4, Option.some.injEq] at hx
          exact hx ▸ hPc
        rcases List.mem_cons.mp hch' with rfl | hch''
        · refine ⟨?_, fun fc' lc' pc' nc' h => Chunk.noConfusion h⟩
          intro info' h
          rw [Chunk.glyph.injEq] at h
          exact h ▸ hPc
        · exact ih (some info.cluster) none
            (fun p hp => by rw [Option.some.injEq] at hp; exact hp ▸ hPc)
            (fun fc' lc' h => Option.noConfusion h) hinfos' ch hch''

/-! ## C2: cluster bounds -/

/-- Bounds master lemma: every glyph the segment shaper adds has a
cluster that is an in-bounds char boundary of the segment, shifted by
`base` — provided the shaping oracle only reports in-bounds
char-boundary clusters. -/
theorem shape_segment_bounds (env : Env) (st : Styles) (dir : Dir)
    (hora : ∀ (fid : Nat) (text : List Char), ∀ info ∈ env.shapeRaw fid st dir text,
      info.cluster < byteLen text ∧ (charAtByte text info.cluster).isSome = true) :
    ∀ (fuel : Nat) (used : List Nat) (glyphs : List ShapedGlyph) (base : Nat)
      (text : List Char) (fams : List String),
      ∀ g ∈ shape_segment env st dir fuel used glyphs base text fams,
        g ∈ glyphs ∨
          (base ≤ g.cluster ∧ g.cluster < base + byteLen text ∧
            (charAtByte text (g.cluster - base)).isSome = true) := by
  intro fuel
  induction fuel with
  | zero =>
    intro used glyphs base text fams g hg
    exact Or.inl hg
  | succ n ih =>
    intro used glyphs base text fams g hg
    simp only [shape_segment] at hg
    by_cases hall : (text.all fun c => c == '\n' || c == '\t') = true
    · rw [if_pos hall] at hg
      exact Or.inl hg
    · rw [if_neg hall] at hg
      cases hsel : selectFace env st used text fams with
      | none =>
        rw [hsel] at hg
        cases hh : used.head? with
        | some fid =>
          rw [hh] at hg
          rcases List.mem_append.mp hg with hmem | hmem
          · exact Or.inl hmem
          · rcases List.mem_map.mp hmem with ⟨p, hp, rfl⟩
            obtain ⟨h1, h2⟩ := char_indices_spec text p hp
            refine Or.inr ⟨Nat.le_add_right _ _, ?_, ?_⟩
            · show base + p.1 < base + byteLen text
              omega
            · show (charAtByte text (base + p.1 - base)).isSome = true
              rw [Nat.add_sub_cancel_left, h2]
              rfl
        | none =>
          rw [hh] at hg
          exact Or.inl hg
      | some r =>
        rw [hsel] at hg
        obtain ⟨face_id, rest⟩ := r
        have hfields := chunksAux_fields
          (fun c => c < byteLen text ∧ (charAtByte text c).isSome = true)
          (env.shapeRaw face_id st dir text) none none
          (fun p hp => Option.noConfusion hp)
          (fun fc lc h => Option.noConfusion h)
          (fun info hi => hora face_id text info hi)
        refine foldl_preserve
          (fun gs => ∀ g ∈ gs, g ∈ glyphs ∨
            (base ≤ g.cluster ∧ g.cluster < base + byteLen text ∧
              (charAtByte text (g.cluster - base)).isSome = true))
          _ _ glyphs (fun g hg => Or.inl hg) ?_ g hg
        intro acc ch hch hacc g2 hg2
        cases ch with
        | glyph info =>
          rcases List.mem_append.mp hg2 with hmem | hmem
          · exact hacc g2 hmem
          · rcases List.mem_singleton.mp hmem with rfl
            obtain ⟨h1, h2⟩ := (hfields _ hch).1 info rfl
            refine Or.inr ⟨Nat.le_add_right _ _, by
              show base + info.cluster < base + byteLen text
              omega, ?_⟩
            show (charAtByte text (base + info.cluster - base)).isSome = true
            rw [Nat.add_sub_cancel_left]
            exact h2
        | tofu fc lc pc nc =>
          obtain ⟨hPfc, hPlc, hPpc, hPnc⟩ := (hfields _ hch).2 fc lc pc nc rfl
          -- the source range of the tofu run
          have hs : (tofuRange dir (byteLen text) (Chunk.tofu fc lc pc nc)).1 < byteLen text ∧
              (charAtByte text
                (tofuRange dir (byteLen text) (Chunk.tofu fc lc pc nc)).1).isSome = true := by
            unfold tofuRange
            cases dir <;> simp [Dir.is_positive]
            · exact hPfc
            · exact hPlc
          have he : (tofuRange dir (byteLen text) (Chunk.tofu fc lc pc nc)).2 ≤ byteLen text := by
            unfold tofuRange
            cases dir with
            | ltr =>
              cases hnc : nc with
              | none => simp [Dir.is_positive]
              | some x =>
                simp only [Dir.is_positive, if_pos rfl, hnc, Option.getD_some]
                exact Nat.le_of_lt (hPnc x hnc).1
            | rtl =>
              cases hpc : pc with
              | none => simp [Dir.is_positive]
              | some x =>
                simp only [Dir.is_positive, Bool.false_eq_true, if_false, hpc, Option.getD_some]
                exact Nat.le_of_lt (hPpc x hpc).1
          rcases ih _ _ _ _ _ g2 hg2 with hmem | ⟨hb1, hb2, hb3⟩
          · exact hacc g2 ((trimGlyphs_sublist _ _ acc).mem hmem)
          · set s := (tofuRange dir (byteLen text) (Chunk.tofu fc lc pc nc)).1 with hsdef
            set e := (tofuRange dir (byteLen text) (Chunk.tofu fc lc pc nc)).2 with hedef
            have hslice := byteLen_byteSlice_le text s e
            refine Or.inr ⟨by omega, by omega, ?_⟩
            rw [Option.isSome_iff_exists] at hb3 hs ⊢
            obtain ⟨ch2, hch2⟩ := hb3
            obtain ⟨ca, hca⟩ := hs.2
            refine ⟨ch2, ?_⟩
            have := charAtByte_byteSlice hca hch2
            have harg : s + (g2.cluster - (base + s)) = g2.cluster - base := by omega
            rw [harg] at this
            exact this

/-- The tracking/spacing walk only rewrites advances: the cluster
sequence is untouched. -/
theorem trackSpaceGo_map_cluster (tr sp : Rat) :
    ∀ l : List ShapedGlyph,
      (trackSpaceGo tr sp l).map (·.cluster) = l.map (·.cluster) := by
  intro l
  induction l with
  | nil => rfl
  | cons g rest ih =>
    show (_ :: trackSpaceGo tr sp rest).map _ = _
    rw [List.map_cons, List.map_cons, ih]
    congr 1
    by_cases hsp : g.c = ' ' <;> cases hh : rest.head? <;> simp [hsp, hh] <;> split <;> rfl

/-- `track_and_space` leaves the cluster sequence unchanged. -/
theorem track_and_space_map_cluster (st : Styles) (l : List ShapedGlyph) :
    (track_and_space st l).map (·.cluster) = l.map (·.cluster) := by
  unfold track_and_space
  split
  · rfl
  · exact trackSpaceGo_map_cluster _ _ l

/-- C2 amended: for every run produced by `shape` under a well-formed
oracle (clusters in bounds and on char boundaries of the shaped text),
every glyph's cluster lies in `[0, text.len())` of the run's own text
and is the byte offset of a char start in it.  (Borrowed runs returned
by `reshape` keep the parent-relative clusters instead; see the
counterexample.) -/
theorem c2_shape_cluster_bounds (env : Env) (st : Styles) (dir : Dir) (fuel : Nat)
    (text : List Char)
    (hora : ∀ (fid : Nat) (t : List Char), ∀ info ∈ env.shapeRaw fid st dir t,
      info.cluster < byteLen t ∧ (charAtByte t info.cluster).isSome = true) :
    ∀ g ∈ (shape env fuel text st dir).glyphs,
      g.cluster < byteLen (shape env fuel text st dir).text ∧
      (charAtByte (shape env fuel text st dir).text g.cluster).isSome = true := by
  intro g hg
  simp only [shape] at hg ⊢
  by_cases he : (match st.textCase with
      | some k => env.apply_case k text
      | none => text).isEmpty = true
  · rw [if_pos he] at hg
    have : (track_and_space st ([] : List ShapedGlyph)).map (·.cluster) = [] :=
      track_and_space_map_cluster st []
    have hmem := List.mem_map_of_mem (·.cluster) hg
    rw [this] at hmem
    exact absurd hmem (List.not_mem_nil _)
  · rw [if_neg he] at hg
    have hmem := List.mem_map_of_mem (·.cluster) hg
    rw [track_and_space_map_cluster] at hmem
    rcases List.mem_map.mp hmem with ⟨g', hg', hcl⟩
    rcases shape_segment_bounds env st dir hora fuel [] [] 0 _ (families st) g' hg' with
      hmem' | ⟨h1, h2, h3⟩
    · exact absurd hmem' (List.not_mem_nil _)
    · rw [Nat.zero_add] at h2
      rw [Nat.sub_zero] at h3
      have hcl' : g'.cluster = g.cluster := hcl
      rw [← hcl']
      exact ⟨h2, h3⟩

/-- The oracle of `env1` is well-formed: one glyph per char with the
char's byte offset as cluster. -/
theorem env1_oracle_bounds (st : Styles) (dir : Dir) :
    ∀ (fid : Nat) (t : List Char), ∀ info ∈ env1.shapeRaw fid st dir t,
      info.cluster < byteLen t ∧ (charAtByte t info.cluster).isSome = true := by
  intro fid t info hi
  have hmem : info ∈ perCharInfos t := by
    cases dir with
    | ltr => exact hi
    | rtl => exact List.mem_reverse.mp hi
  rcases List.mem_map.mp hmem with ⟨p, hp, rfl⟩
  obtain ⟨h1, h2⟩ := char_indices_spec t p hp
  refine ⟨h1, ?_⟩
  show (charAtByte t p.1).isSome = true
  rw [h2]
  rfl

/-- C2 witness: the bound at a concrete glyph of a concretely shaped
run. -/
theorem c2_witness :
    (run1.glyphs.getD 0 default).cluster < byteLen run1.text ∧
    (charAtByte run1.text (run1.glyphs.getD 0 default).cluster).isSome = true :=
  c2_shape_cluster_bounds env1 st1 .ltr 3 ['a', 'b'] (env1_oracle_bounds st1 .ltr)
    (run1.glyphs.getD 0 default) (by decide)

/-! ## C3: cluster monotonicity -/

theorem getLast?_mem' {α : Type} : ∀ (l : List α) (a : α), l.getLast? = some a → a ∈ l := by
  intro l
  induction l with
  | nil => intro a h; exact absurd h (by simp)
  | cons x xs ih =>
    intro a h
    cases xs with
    | nil =>
      rw [show (x :: ([] : List α)).getLast? = some x from rfl, Option.some.injEq] at h
      rw [← h]
      exact List.mem_cons_self _ _
    | cons y ys =>
      rw [show (x :: y :: ys).getLast? = (y :: ys).getLast? from rfl] at h
      exact List.mem_cons_of_mem _ (ih a h)

/-- In a pairwise-ordered list every element relates to the last one. -/
theorem pairwise_getLast? {α : Type} (R : α → α → Prop) (hrefl : ∀ x, R x x) :
    ∀ (l : List α) (gl : α), List.Pairwise R l → l.getLast? = some gl →
      ∀ a ∈ l, R a gl := by
  intro l
  induction l with
  | nil => intro gl _ _ a ha; exact absurd ha (List.not_mem_nil _)
  | cons x xs ih =>
    intro gl hp hl a ha
    cases xs with
    | nil =>
      rw [show (x :: ([] : List α)).getLast? = some x from rfl, Option.some.injEq] at hl
      rcases List.mem_singleton.mp ha with rfl
      rw [← hl]
      exact hrefl a
    | cons y ys =>
      rw [show (x :: y :: ys).getLast? = (y :: ys).getLast? from rfl] at hl
      rcases List.mem_cons.mp ha with rfl | ha'
      · exact (List.pairwise_cons.mp hp).1 gl (getLast?_mem' _ _ hl)
      · exact ih gl (List.pairwise_cons.mp hp).2 hl a ha'

/-- Equal cluster sequences transfer direction-monotonicity. -/
theorem clusterSorted_of_map_eq {dir : Dir} {l1 l2 : List ShapedGlyph}
    (h : l1.map (·.cluster) = l2.map (·.cluster)) (hs : ClusterSorted dir l1) :
    ClusterSorted dir l2 := by
  cases dir with
  | ltr =>
    have h1 : List.Pairwise (· ≤ ·) (l1.map (·.cluster)) := List.pairwise_map.mpr hs
    rw [h] at h1
    exact List.pairwise_map.mp h1
  | rtl =>
    have h1 : List.Pairwise (fun a b => b ≤ a) (l1.map (·.cluster)) := List.pairwise_map.mpr hs
    rw [h] at h1
    exact List.pairwise_map.mp h1

/-- The byte offsets of `char_indices` are non-decreasing. -/
theorem charIndicesFrom_sorted : ∀ (t : List Char) (off : Nat),
    List.Pairwise (fun p q : Nat × Char => p.1 ≤ q.1) (charIndicesFrom off t) := by
  intro t
  induction t with
  | nil => intro off; simp [charIndicesFrom]
  | cons c t' ih =>
    intro off
    rw [show charIndicesFrom off (c :: t') = (off, c) :: charIndicesFrom (off + c.utf8Size) t'
      from rfl, List.pairwise_cons]
    refine ⟨?_, ih _⟩
    intro q hq
    have := (charIndicesFrom_spec t' (off + c.utf8Size) q hq).1
    omega

/-- With no tofus in the oracle output, the chunk stream is one glyph
chunk per info. -/
theorem chunksAux_all_glyph :
    ∀ (infos : List RawInfo) (prev : Option Nat), (∀ i ∈ infos, i.glyph_id ≠ 0) →
      chunksAux prev none infos = infos.map Chunk.glyph := by
  intro infos
  induction infos with
  | nil => intro prev _; rfl
  | cons i rest ih =>
    intro prev hnz
    have hz : ¬ i.glyph_id = 0 := hnz i (List.mem_cons_self _ _)
    rw [show chunksAux prev none (i :: rest) =
        Chunk.glyph i :: chunksAux (some i.cluster) none rest by simp [chunksAux, hz]]
    rw [ih _ (fun j hj => hnz j (List.mem_cons_of_mem _ hj))]
    rfl

/-- Folding glyph chunks just appends the shaped glyphs in order. -/
theorem foldl_glyph_chunks (dir : Dir)
    (recur : List Nat → List ShapedGlyph → Nat → List Char → List String → List ShapedGlyph)
    (used2 : List Nat) (face_id base : Nat) (text : List Char) (rest : List String) :
    ∀ (infos : List RawInfo) (acc : List ShapedGlyph),
      (infos.map Chunk.glyph).foldl (segStep dir recur used2 face_id base text rest) acc =
        acc ++ infos.map (mkGlyph face_id base text) := by
  intro infos
  induction infos with
  | nil => intro acc; simp
  | cons i rest' ih =>
    intro acc
    rw [List.map_cons, List.foldl_cons]
    rw [show segStep dir recur used2 face_id base text rest acc (Chunk.glyph i) =
      acc ++ [mkGlyph face_id base text i] from rfl]
    rw [ih]
    simp

/-- Lower bound for the cluster of the next emission (LTR): the open
run's first cluster, else the head info's cluster, else the text
length. -/
def loNext (textLen : Nat) : Option (Nat × Nat) → List RawInfo → Nat
  | some (fc, _), _ => fc
  | none, [] => textLen
  | none, i :: _ => i.cluster

/-- LTR fold lemma: running the glyph loop over the chunk stream of a
non-decreasing info list keeps the glyph vector non-decreasing, given
that deeper recursion (via `hrec`) does so and the oracle is
well-formed. -/
theorem foldSorted_ltr (env : Env) (st : Styles) (fuel : Nat) (used2 : List Nat)
    (face_id base : Nat) (text : List Char) (rest : List String)
    (horaB : ∀ (fid : Nat) (t : List Char), ∀ info ∈ env.shapeRaw fid st .ltr t,
      info.cluster < byteLen t ∧ (charAtByte t info.cluster).isSome = true)
    (hrec : ∀ u g b t f, ClusterSorted .ltr g → (∀ x ∈ g, x.cluster ≤ b) →
      ClusterSorted .ltr (shape_segment env st .ltr fuel u g b t f)) :
    ∀ (infos : List RawInfo) (prev : Option Nat) (orun : Option (Nat × Nat))
      (acc : List ShapedGlyph),
      (∀ i ∈ infos, i.cluster < byteLen text) →
      List.Pairwise (fun a b : RawInfo => a.cluster ≤ b.cluster) infos →
      (∀ fc lc, orun = some (fc, lc) →
        fc ≤ lc ∧ lc < byteLen text ∧ ∀ i ∈ infos, lc ≤ i.cluster) →
      ClusterSorted .ltr acc →
      (∀ g ∈ acc, g.cluster ≤ base + loNext (byteLen text) orun infos) →
      ClusterSorted .ltr
        ((chunksAux prev orun infos).foldl
          (segStep .ltr (fun u g b t f => shape_segment env st .ltr fuel u g b t f)
            used2 face_id base text rest) acc) := by
  intro infos
  induction infos with
  | nil =>
    intro prev orun acc hinf hsor horun hacc haccb
    cases orun with
    | none => exact hacc
    | some r =>
      obtain ⟨fc, lc⟩ := r
      rw [show chunksAux prev (some (fc, lc)) [] = [Chunk.tofu fc lc prev none] from rfl]
      rw [List.foldl_cons, List.foldl_nil]
      rw [show segStep .ltr (fun u g b t f => shape_segment env st .ltr fuel u g b t f)
          used2 face_id base text rest acc (Chunk.tofu fc lc prev none) =
        shape_segment env st .ltr fuel used2
          (trimGlyphs (base + fc) (base + byteLen text) acc) (base + fc)
          (byteSlice text fc (byteLen text)) rest from rfl]
      refine hrec _ _ _ _ _ ?_ ?_
      · exact List.Pairwise.sublist (trimGlyphs_sublist _ _ acc) hacc
      · intro x hx
        exact haccb x ((trimGlyphs_sublist _ _ acc).mem hx)
  | cons i rest' ih =>
    intro prev orun acc hinf hsor horun hacc haccb
    have hilen : i.cluster < byteLen text := hinf i (List.mem_cons_self _ _)
    have hinf' : ∀ j ∈ rest', j.cluster < byteLen text :=
      fun j hj => hinf j (List.mem_cons_of_mem _ hj)
    have hhead : ∀ j ∈ rest', i.cluster ≤ j.cluster := (List.pairwise_cons.mp hsor).1
    have hsor' := (List.pairwise_cons.mp hsor).2
    have hlo : i.cluster ≤ loNext (byteLen text) none rest' := by
      cases rest' with
      | nil => exact Nat.le_of_lt hilen
      | cons j js => exact hhead j (List.mem_cons_self _ _)
    cases orun with
    | none =>
      by_cases hz : i.glyph_id = 0
      · rw [show chunksAux prev none (i :: rest') =
            chunksAux prev (some (i.cluster, i.cluster)) rest' by simp [chunksAux, hz]]
        refine ih prev _ acc hinf' hsor' ?_ hacc ?_
        · intro fc lc h
          rw [Option.some.injEq, Prod.mk.injEq] at h
          obtain ⟨h1, h2⟩ := h
          refine ⟨by omega, by rw [← h2]; exact hilen, fun j hj => by rw [← h2]; exact hhead j hj⟩
        · intro g hg
          exact haccb g hg
      · rw [show chunksAux prev none (i :: rest') =
            Chunk.glyph i :: chunksAux (some i.cluster) none rest' by simp [chunksAux, hz]]
        rw [List.foldl_cons]
        rw [show segStep .ltr (fun u g b t f => shape_segment env st .ltr fuel u g b t f)
            used2 face_id base text rest acc (Chunk.glyph i) =
          acc ++ [mkGlyph face_id base text i] from rfl]
        refine ih (some i.cluster) none _ hinf' hsor'
          (fun fc' lc' h => Option.noConfusion h) ?_ ?_
        · show List.Pairwise (fun a b : ShapedGlyph => a.cluster ≤ b.cluster)
            (acc ++ [mkGlyph face_id base text i])
          rw [List.pairwise_append]
          refine ⟨hacc, List.pairwise_singleton _ _, ?_⟩
          intro a ha b hb
          rcases List.mem_singleton.mp hb with rfl
          show a.cluster ≤ base + i.cluster
          exact haccb a ha
        · intro g hg
          rcases List.mem_append.mp hg with hmem | hmem
          · have h2 : g.cluster ≤ base + i.cluster := haccb g hmem
            show g.cluster ≤ base + loNext (byteLen text) none rest'
            omega
          · rcases List.mem_singleton.mp hmem with rfl
            show base + i.cluster ≤ base + loNext (byteLen text) none rest'
            omega
    | some rr =>
      obtain ⟨fc, lc⟩ := rr
      obtain ⟨hfl, hlcb, hlci⟩ := horun fc lc rfl
      have hlc_i : lc ≤ i.cluster := hlci i (List.mem_cons_self _ _)
      by_cases hz : i.glyph_id = 0
      · rw [show chunksAux prev (some (fc, lc)) (i :: rest') =
            chunksAux prev (some (fc, i.cluster)) rest' by simp [chunksAux, hz]]
        refine ih prev _ acc hinf' hsor' ?_ hacc ?_
        · intro fc' lc' h
          rw [Option.some.injEq, Prod.mk.injEq] at h
          obtain ⟨h1, h2⟩ := h
          refine ⟨by omega, by rw [← h2]; exact hilen, fun j hj => by rw [← h2]; exact hhead j hj⟩
        · intro g hg
          exact haccb g hg
      · rw [show chunksAux prev (some (fc, lc)) (i :: rest') =
            Chunk.tofu fc lc prev (some i.cluster) ::
              Chunk.glyph i :: chunksAux (some i.cluster) none rest' by simp [chunksAux, hz]]
        rw [List.foldl_cons, List.foldl_cons]
        rw [show segStep .ltr (fun u g b t f => shape_segment env st .ltr fuel u g b t f)
            used2 face_id base text rest acc (Chunk.tofu fc lc prev (some i.cluster)) =
          shape_segment env st .ltr fuel used2
            (trimGlyphs (base + fc) (base + i.cluster) acc) (base + fc)
            (byteSlice text fc i.cluster) rest from rfl]
        have hacc1_sorted : ClusterSorted .ltr (shape_segment env st .ltr fuel used2
            (trimGlyphs (base + fc) (base + i.cluster) acc) (base + fc)
            (byteSlice text fc i.cluster) rest) := by
          refine hrec _ _ _ _ _ ?_ ?_
          · exact List.Pairwise.sublist (trimGlyphs_sublist _ _ acc) hacc
          · intro x hx
            exact haccb x ((trimGlyphs_sublist _ _ acc).mem hx)
        have hacc1_bound : ∀ g ∈ shape_segment env st .ltr fuel used2
            (trimGlyphs (base + fc) (base + i.cluster) acc) (base + fc)
            (byteSlice text fc i.cluster) rest, g.cluster ≤ base + i.cluster := by
          intro g hg
          rcases shape_segment_bounds env st .ltr horaB fuel used2
              (trimGlyphs (base + fc) (base + i.cluster) acc) (base + fc)
              (byteSlice text fc i.cluster) rest g hg with hmem | ⟨hb1, hb2, -⟩
          · have h2 : g.cluster ≤ base + fc :=
              haccb g ((trimGlyphs_sublist _ _ acc).mem hmem)
            omega
          · have hb3 := byteLen_byteSlice_le text fc i.cluster
            omega
        rw [show segStep .ltr (fun u g b t f => shape_segment env st .ltr fuel u g b t f)
            used2 face_id base text rest
            (shape_segment env st .ltr fuel used2
              (trimGlyphs (base + fc) (base + i.cluster) acc) (base + fc)
              (byteSlice text fc i.cluster) rest) (Chunk.glyph i) =
          shape_segment env st .ltr fuel used2
            (trimGlyphs (base + fc) (base + i.cluster) acc) (base + fc)
            (byteSlice text fc i.cluster) rest ++ [mkGlyph face_id base text i] from rfl]
        refine ih (some i.cluster) none _ hinf' hsor'
          (fun fc' lc' h => Option.noConfusion h) ?_ ?_
        · show List.Pairwise (fun a b : ShapedGlyph => a.cluster ≤ b.cluster) _
          rw [List.pairwise_append]
          refine ⟨hacc1_sorted, List.pairwise_singleton _ _, ?_⟩
          intro a ha b hb
          rcases List.mem_singleton.mp hb with rfl
          show a.cluster ≤ base + i.cluster
          exact hacc1_bound a ha
        · intro g hg
          rcases List.mem_append.mp hg with hmem | hmem
          · have h2 : g.cluster ≤ base + i.cluster := hacc1_bound g hmem
            show g.cluster ≤ base + loNext (byteLen text) none rest'
            omega
          · rcases List.mem_singleton.mp hmem with rfl
            show base + i.cluster ≤ base + loNext (byteLen text) none rest'
            omega


/-- Sorted segment shaping, LTR: under a well-formed non-decreasing
oracle, the segment shaper keeps the glyph vector non-decreasing. -/
theorem shape_segment_sorted_ltr (env : Env) (st : Styles)
    (horaB : ∀ (fid : Nat) (t : List Char), ∀ info ∈ env.shapeRaw fid st .ltr t,
      info.cluster < byteLen t ∧ (charAtByte t info.cluster).isSome = true)
    (horaS : ∀ (fid : Nat) (t : List Char),
      List.Pairwise (fun a b : RawInfo => a.cluster ≤ b.cluster) (env.shapeRaw fid st .ltr t)) :
    ∀ (fuel : Nat) (used : List Nat) (glyphs : List ShapedGlyph) (base : Nat)
      (text : List Char) (fams : List String),
      ClusterSorted .ltr glyphs → (∀ g ∈ glyphs, g.cluster ≤ base) →
      ClusterSorted .ltr (shape_segment env st .ltr fuel used glyphs base text fams) := by
  intro fuel
  induction fuel with
  | zero => intro used glyphs base text fams hs hb; exact hs
  | succ n ih =>
    intro used glyphs base text fams hs hb
    simp only [shape_segment]
    by_cases hall : (text.all fun c => c == '\n' || c == '\t') = true
    · rw [if_pos hall]; exact hs
    · rw [if_neg hall]
      cases hsel : selectFace env st used text fams with
      | none =>
        cases hh : used.head? with
        | some fid =>
          show List.Pairwise (fun a b : ShapedGlyph => a.cluster ≤ b.cluster)
            (glyphs ++ shape_tofus env fid base text)
          rw [List.pairwise_append]
          refine ⟨hs, ?_, ?_⟩
          · unfold shape_tofus
            rw [List.pairwise_map]
            exact (charIndicesFrom_sorted text 0).imp
              (fun h => Nat.add_le_add_left h base)
          · intro a ha b hb'
            unfold shape_tofus at hb'
            rcases List.mem_map.mp hb' with ⟨p, hp, rfl⟩
            show a.cluster ≤ base + p.1
            have := hb a ha
            omega
        | none => exact hs
      | some r =>
        obtain ⟨face_id, rest⟩ := r
        refine foldSorted_ltr env st n (used ++ [face_id]) face_id base text rest horaB
          (fun u g b t f hsg hbg => ih u g b t f hsg hbg)
          (env.shapeRaw face_id st .ltr text) none none glyphs
          (fun i hi => (horaB face_id text i hi).1)
          (horaS face_id text)
          (fun fc lc h => Option.noConfusion h)
          hs ?_
        intro g hg
        have := hb g hg
        omega

/-- Shape-level LTR monotonicity. -/
theorem shape_ltr_sorted (env : Env) (st : Styles) (fuel : Nat) (text : List Char)
    (horaB : ∀ (fid : Nat) (t : List Char), ∀ info ∈ env.shapeRaw fid st .ltr t,
      info.cluster < byteLen t ∧ (charAtByte t info.cluster).isSome = true)
    (horaS : ∀ (fid : Nat) (t : List Char),
      List.Pairwise (fun a b : RawInfo => a.cluster ≤ b.cluster) (env.shapeRaw fid st .ltr t)) :
    ClusterSorted .ltr (shape env fuel text st .ltr).glyphs := by
  simp only [shape]
  refine clusterSorted_of_map_eq (track_and_space_map_cluster st _).symm ?_
  by_cases he : (match st.textCase with
      | some k => env.apply_case k text
      | none => text).isEmpty = true
  · rw [if_pos he]
    exact List.Pairwise.nil
  · rw [if_neg he]
    exact shape_segment_sorted_ltr env st horaB horaS fuel [] [] 0 _ (families st)
      List.Pairwise.nil (fun g hg => absurd hg (List.not_mem_nil _))

/-- RTL fold lemma: running the glyph loop over the chunk stream of a
non-increasing info list keeps the glyph vector non-increasing, given
that the deeper recursion over the tofu chunks of the initial stream
(via `hrec`) does so and the oracle is well-formed. -/
theorem foldSorted_rtl (env : Env) (st : Styles) (fuel : Nat) (used2 : List Nat)
    (face_id base : Nat) (text : List Char) (rest : List String)
    (chunks0 : List Chunk)
    (horaB : ∀ (fid : Nat) (t : List Char), ∀ info ∈ env.shapeRaw fid st .rtl t,
      info.cluster < byteLen t ∧ (charAtByte t info.cluster).isSome = true)
    (hrec : ∀ (fc lc : Nat) (pc nc : Option Nat), Chunk.tofu fc lc pc nc ∈ chunks0 →
      ∀ g : List ShapedGlyph, ClusterSorted .rtl g →
        (∀ x ∈ g,
          base + lc + byteLen (byteSlice text lc (pc.getD (byteLen text))) ≤ x.cluster) →
        ClusterSorted .rtl (shape_segment env st .rtl fuel used2 g (base + lc)
          (byteSlice text lc (pc.getD (byteLen text))) rest)) :
    ∀ (infos : List RawInfo) (prev : Option Nat) (orun : Option (Nat × Nat))
      (acc : List ShapedGlyph),
      (∀ i ∈ infos, i.cluster < byteLen text) →
      List.Pairwise (fun a b : RawInfo => b.cluster ≤ a.cluster) infos →
      (∀ i ∈ infos, i.cluster ≤ prev.getD (byteLen text)) →
      (∀ fc lc, orun = some (fc, lc) →
        lc ≤ fc ∧ fc ≤ prev.getD (byteLen text) ∧ ∀ i ∈ infos, i.cluster ≤ lc) →
      (∀ c ∈ chunksAux prev orun infos, c ∈ chunks0) →
      ClusterSorted .rtl acc →
      (∀ g ∈ acc, base + prev.getD (byteLen text) ≤ g.cluster) →
      ClusterSorted .rtl
        ((chunksAux prev orun infos).foldl
          (segStep .rtl (fun u g b t f => shape_segment env st .rtl fuel u g b t f)
            used2 face_id base text rest) acc) := by
  intro infos
  induction infos with
  | nil =>
    intro prev orun acc hinf hsor hprevB horun hmem hacc haccb
    cases orun with
    | none => exact hacc
    | some r =>
      obtain ⟨fc, lc⟩ := r
      obtain ⟨hfl, hfp, -⟩ := horun fc lc rfl
      have hc0 : Chunk.tofu fc lc prev none ∈ chunks0 := by
        refine hmem _ ?_
        rw [show chunksAux prev (some (fc, lc)) [] = [Chunk.tofu fc lc prev none] from rfl]
        exact List.mem_singleton.mpr rfl
      rw [show chunksAux prev (some (fc, lc)) [] = [Chunk.tofu fc lc prev none] from rfl]
      rw [List.foldl_cons, List.foldl_nil]
      rw [show segStep .rtl (fun u g b t f => shape_segment env st .rtl fuel u g b t f)
          used2 face_id base text rest acc (Chunk.tofu fc lc prev none) =
        shape_segment env st .rtl fuel used2
          (trimGlyphs (base + lc) (base + prev.getD (byteLen text)) acc) (base + lc)
          (byteSlice text lc (prev.getD (byteLen text))) rest from rfl]
      refine hrec fc lc prev none hc0 _ ?_ ?_
      · exact List.Pairwise.sublist (trimGlyphs_sublist _ _ acc) hacc
      · intro x hx
        have h1 := haccb x ((trimGlyphs_sublist _ _ acc).mem hx)
        have h2 := byteLen_byteSlice_le text lc (prev.getD (byteLen text))
        omega
  | cons i rest' ih =>
    intro prev orun acc hinf hsor hprevB horun hmem hacc haccb
    have hilen : i.cluster < byteLen text := hinf i (List.mem_cons_self _ _)
    have hinf' : ∀ j ∈ rest', j.cluster < byteLen text :=
      fun j hj => hinf j (List.mem_cons_of_mem _ hj)
    have hhead : ∀ j ∈ rest', j.cluster ≤ i.cluster := (List.pairwise_cons.mp hsor).1
    have hsor' := (List.pairwise_cons.mp hsor).2
    have hprev_i : i.cluster ≤ prev.getD (byteLen text) := hprevB i (List.mem_cons_self _ _)
    cases orun with
    | none =>
      by_cases hz : i.glyph_id = 0
      · rw [show chunksAux prev none (i :: rest') =
            chunksAux prev (some (i.cluster, i.cluster)) rest' by simp [chunksAux, hz]]
        refine ih prev _ acc hinf' hsor'
          (fun j hj => hprevB j (List.mem_cons_of_mem _ hj)) ?_ ?_ hacc haccb
        · intro fc lc h
          rw [Option.some.injEq, Prod.mk.injEq] at h
          obtain ⟨h1, h2⟩ := h
          refine ⟨by omega, by rw [← h1]; exact hprev_i, fun j hj => by rw [← h2]; exact hhead j hj⟩
        · intro c hc
          refine hmem c ?_
          rw [show chunksAux prev none (i :: rest') =
            chunksAux prev (some (i.cluster, i.cluster)) rest' by simp [chunksAux, hz]]
          exact hc
      · rw [show chunksAux prev none (i :: rest') =
            Chunk.glyph i :: chunksAux (some i.cluster) none rest' by simp [chunksAux, hz]]
        rw [List.foldl_cons]
        rw [show segStep .rtl (fun u g b t f => shape_segment env st .rtl fuel u g b t f)
            used2 face_id base text rest acc (Chunk.glyph i) =
          acc ++ [mkGlyph face_id base text i] from rfl]
        refine ih (some i.cluster) none _ hinf' hsor'
          (fun j hj => hhead j hj) (fun fc' lc' h => Option.noConfusion h) ?_ ?_ ?_
        · intro c hc
          refine hmem c ?_
          rw [show chunksAux prev none (i :: rest') =
            Chunk.glyph i :: chunksAux (some i.cluster) none rest' by simp [chunksAux, hz]]
          exact List.mem_cons_of_mem _ hc
        · show List.Pairwise (fun a b : ShapedGlyph => b.cluster ≤ a.cluster)
            (acc ++ [mkGlyph face_id base text i])
          rw [List.pairwise_append]
          refine ⟨hacc, List.pairwise_singleton _ _, ?_⟩
          intro a ha b hb'
          rcases List.mem_singleton.mp hb' with rfl
          show base + i.cluster ≤ a.cluster
          have h2 := haccb a ha
          omega
        · intro g hg
          rcases List.mem_append.mp hg with hmem' | hmem'
          · have h2 := haccb g hmem'
            show base + i.cluster ≤ g.cluster
            omega
          · rcases List.mem_singleton.mp hmem' with rfl
            show base + i.cluster ≤ base + i.cluster
            exact Nat.le_refl _
    | some rr =>
      obtain ⟨fc, lc⟩ := rr
      obtain ⟨hfl, hfp, hlci⟩ := horun fc lc rfl
      have hlc_i : i.cluster ≤ lc := hlci i (List.mem_cons_self _ _)
      by_cases hz : i.glyph_id = 0
      · rw [show chunksAux prev (some (fc, lc)) (i :: rest') =
            chunksAux prev (some (fc, i.cluster)) rest' by simp [chunksAux, hz]]
        refine ih prev _ acc hinf' hsor'
          (fun j hj => hprevB j (List.mem_cons_of_mem _ hj)) ?_ ?_ hacc haccb
        · intro fc' lc' h
          rw [Option.some.injEq, Prod.mk.injEq] at h
          obtain ⟨h1, h2⟩ := h
          refine ⟨by omega, by omega, fun j hj => by rw [← h2]; exact hhead j hj⟩
        · intro c hc
          refine hmem c ?_
          rw [show chunksAux prev (some (fc, lc)) (i :: rest') =
            chunksAux prev (some (fc, i.cluster)) rest' by simp [chunksAux, hz]]
          exact hc
      · rw [show chunksAux prev (some (fc, lc)) (i :: rest') =
            Chunk.tofu fc lc prev (some i.cluster) ::
              Chunk.glyph i :: chunksAux (some i.cluster) none rest' by simp [chunksAux, hz]]
        rw [List.foldl_cons, List.foldl_cons]
        have hc0 : Chunk.tofu fc lc prev (some i.cluster) ∈ chunks0 := by
          refine hmem _ ?_
          rw [show chunksAux prev (some (fc, lc)) (i :: rest') =
            Chunk.tofu fc lc prev (some i.cluster) ::
              Chunk.glyph i :: chunksAux (some i.cluster) none rest' by simp [chunksAux, hz]]
          exact List.mem_cons_self _ _
        rw [show segStep .rtl (fun u g b t f => shape_segment env st .rtl fuel u g b t f)
            used2 face_id base text rest acc (Chunk.tofu fc lc prev (some i.cluster)) =
          shape_segment env st .rtl fuel used2
            (trimGlyphs (base + lc) (base + prev.getD (byteLen text)) acc) (base + lc)
            (byteSlice text lc (prev.getD (byteLen text))) rest from rfl]
        have hacc1_sorted : ClusterSorted .rtl (shape_segment env st .rtl fuel used2
            (trimGlyphs (base + lc) (base + prev.getD (byteLen text)) acc) (base + lc)
            (byteSlice text lc (prev.getD (byteLen text))) rest) := by
          refine hrec fc lc prev (some i.cluster) hc0 _ ?_ ?_
          · exact List.Pairwise.sublist (trimGlyphs_sublist _ _ acc) hacc
          · intro x hx
            have h1 := haccb x ((trimGlyphs_sublist _ _ acc).mem hx)
            have h2 := byteLen_byteSlice_le text lc (prev.getD (byteLen text))
            omega
        have hacc1_lb : ∀ g ∈ shape_segment env st .rtl fuel used2
            (trimGlyphs (base + lc) (base + prev.getD (byteLen text)) acc) (base + lc)
            (byteSlice text lc (prev.getD (byteLen text))) rest,
            base + i.cluster ≤ g.cluster := by
          intro g hg
          rcases shape_segment_bounds env st .rtl horaB fuel used2
              (trimGlyphs (base + lc) (base + prev.getD (byteLen text)) acc) (base + lc)
              (byteSlice text lc (prev.getD (byteLen text))) rest g hg with hmem' | ⟨hb1, hb2, -⟩
          · have h2 := haccb g ((trimGlyphs_sublist _ _ acc).mem hmem')
            omega
          · omega
        rw [show segStep .rtl (fun u g b t f => shape_segment env st .rtl fuel u g b t f)
            used2 face_id base text rest
            (shape_segment env st .rtl fuel used2
              (trimGlyphs (base + lc) (base + prev.getD (byteLen text)) acc) (base + lc)
              (byteSlice text lc (prev.getD (byteLen text))) rest) (Chunk.glyph i) =
          shape_segment env st .rtl fuel used2
            (trimGlyphs (base + lc) (base + prev.getD (byteLen text)) acc) (base + lc)
            (byteSlice text lc (prev.getD (byteLen text))) rest ++
            [mkGlyph face_id base text i] from rfl]
        refine ih (some i.cluster) none _ hinf' hsor'
          (fun j hj => hhead j hj) (fun fc' lc' h => Option.noConfusion h) ?_ ?_ ?_
        · intro c hc
          refine hmem c ?_
          rw [show chunksAux prev (some (fc, lc)) (i :: rest') =
            Chunk.tofu fc lc prev (some i.cluster) ::
              Chunk.glyph i :: chunksAux (some i.cluster) none rest' by simp [chunksAux, hz]]
          exact List.mem_cons_of_mem _ (List.mem_cons_of_mem _ hc)
        · show List.Pairwise (fun a b : ShapedGlyph => b.cluster ≤ a.cluster) _
          rw [List.pairwise_append]
          refine ⟨hacc1_sorted, List.pairwise_singleton _ _, ?_⟩
          intro a ha b hb'
          rcases List.mem_singleton.mp hb' with rfl
          show base + i.cluster ≤ a.cluster
          exact hacc1_lb a ha
        · intro g hg
          rcases List.mem_append.mp hg with hmem' | hmem'
          · show base + i.cluster ≤ g.cluster
            exact hacc1_lb g hmem'
          · rcases List.mem_singleton.mp hmem' with rfl
            show base + i.cluster ≤ base + i.cluster
            exact Nat.le_refl _

/-- Sorted segment shaping, RTL: under a well-formed non-increasing
oracle, the segment shaper keeps the glyph vector non-increasing
provided the invariant `P` — preserved along every tofu-recursion step —
guarantees that a failed face lookup happens only at the top of the
fallback stack or on an empty range (so `shape_tofus` never appends
anything). -/
theorem shape_segment_sorted_rtl (env : Env) (st : Styles)
    (horaB : ∀ (fid : Nat) (t : List Char), ∀ info ∈ env.shapeRaw fid st .rtl t,
      info.cluster < byteLen t ∧ (charAtByte t info.cluster).isSome = true)
    (horaS : ∀ (fid : Nat) (t : List Char),
      List.Pairwise (fun a b : RawInfo => b.cluster ≤ a.cluster) (env.shapeRaw fid st .rtl t))
    (P : List Nat → List Char → List String → Prop)
    (hPstop : ∀ used t fams, P used t fams → selectFace env st used t fams = none →
      used = [] ∨ t = [])
    (hPstep : ∀ used t fams face_id rest, P used t fams →
      selectFace env st used t fams = some (face_id, rest) →
      ∀ fc lc pc nc, Chunk.tofu fc lc pc nc ∈ chunks none (env.shapeRaw face_id st .rtl t) →
        P (used ++ [face_id])
          (byteSlice t (tofuRange .rtl (byteLen t) (.tofu fc lc pc nc)).1
            (tofuRange .rtl (byteLen t) (.tofu fc lc pc nc)).2) rest) :
    ∀ (fuel : Nat) (used : List Nat) (glyphs : List ShapedGlyph) (base : Nat)
      (text : List Char) (fams : List String), P used text fams →
      ClusterSorted .rtl glyphs → (∀ g ∈ glyphs, base + byteLen text ≤ g.cluster) →
      ClusterSorted .rtl (shape_segment env st .rtl fuel used glyphs base text fams) := by
  intro fuel
  induction fuel with
  | zero => intro used glyphs base text fams hP hs hb; exact hs
  | succ n ih =>
    intro used glyphs base text fams hP hs hb
    simp only [shape_segment]
    by_cases hall : (text.all fun c => c == '\n' || c == '\t') = true
    · rw [if_pos hall]; exact hs
    · rw [if_neg hall]
      cases hsel : selectFace env st used text fams with
      | none =>
        rcases hPstop used text fams hP hsel with hu | ht
        · cases hh : used.head? with
          | some fid =>
            rw [hu] at hh
            exact Option.noConfusion hh
          | none => exact hs
        · exact absurd (by rw [ht]; rfl) hall
      | some r =>
        obtain ⟨face_id, rest⟩ := r
        refine foldSorted_rtl env st n (used ++ [face_id]) face_id base text rest
          (chunks none (env.shapeRaw face_id st .rtl text)) horaB ?hrec
          (env.shapeRaw face_id st .rtl text) none none glyphs
          (fun i hi => (horaB face_id text i hi).1)
          (horaS face_id text)
          ?hprevB
          (fun fc lc h => Option.noConfusion h)
          (fun c hc => hc)
          hs ?haccb
        case hrec =>
          intro fc lc pc nc hcm g hg hbg
          exact ih (used ++ [face_id]) g (base + lc)
            (byteSlice text lc (pc.getD (byteLen text))) rest
            (hPstep used text fams face_id rest hP hsel fc lc pc nc hcm) hg hbg
        case hprevB =>
          intro i hi
          show i.cluster ≤ byteLen text
          exact Nat.le_of_lt (horaB face_id text i hi).1
        case haccb =>
          intro g hg
          show base + byteLen text ≤ g.cluster
          exact hb g hg

/-- Shape-level RTL monotonicity, provided the fallback never bottoms
out into `shape_tofus`: the invariant `P` holds at the initial call, is
preserved along every tofu-recursion step, and guarantees that a failed
face lookup only happens at the top of the stack or on an empty range.
Tofu runs that deeper families successfully re-shape are covered. -/
theorem shape_rtl_sorted (env : Env) (st : Styles) (fuel : Nat) (text : List Char)
    (P : List Nat → List Char → List String → Prop)
    (horaB : ∀ (fid : Nat) (t : List Char), ∀ info ∈ env.shapeRaw fid st .rtl t,
      info.cluster < byteLen t ∧ (charAtByte t info.cluster).isSome = true)
    (horaS : ∀ (fid : Nat) (t : List Char),
      List.Pairwise (fun a b : RawInfo => b.cluster ≤ a.cluster) (env.shapeRaw fid st .rtl t))
    (hPstop : ∀ used t fams, P used t fams → selectFace env st used t fams = none →
      used = [] ∨ t = [])
    (hPstep : ∀ used t fams face_id rest, P used t fams →
      selectFace env st used t fams = some (face_id, rest) →
      ∀ fc lc pc nc, Chunk.tofu fc lc pc nc ∈ chunks none (env.shapeRaw face_id st .rtl t) →
        P (used ++ [face_id])
          (byteSlice t (tofuRange .rtl (byteLen t) (.tofu fc lc pc nc)).1
            (tofuRange .rtl (byteLen t) (.tofu fc lc pc nc)).2) rest)
    (hP0 : ∀ t, P [] t (families st)) :
    ClusterSorted .rtl (shape env fuel text st .rtl).glyphs := by
  simp only [shape]
  refine clusterSorted_of_map_eq (track_and_space_map_cluster st _).symm ?_
  by_cases he : (match st.textCase with
      | some k => env.apply_case k text
      | none => text).isEmpty = true
  · rw [if_pos he]
    exact List.Pairwise.nil
  · rw [if_neg he]
    exact shape_segment_sorted_rtl env st horaB horaS P hPstop hPstep fuel [] [] 0 _
      (families st) (hP0 _) List.Pairwise.nil (fun g hg => absurd hg (List.not_mem_nil _))

theorem getLast?_isSome_of_ne_nil {α : Type} :
    ∀ (l : List α), l ≠ [] → (l.getLast?).isSome = true := by
  intro l
  induction l with
  | nil => intro h; exact absurd rfl h
  | cons x xs ih =>
    intro _
    cases xs with
    | nil => rfl
    | cons y ys =>
      rw [show (x :: y :: ys).getLast? = (y :: ys).getLast? from rfl]
      exact ih (by simp)

theorem clusterSorted_sublist {dir : Dir} {l1 l2 : List ShapedGlyph}
    (h : List.Sublist l1 l2) (hs : ClusterSorted dir l2) : ClusterSorted dir l1 := by
  cases dir with
  | ltr => exact List.Pairwise.sublist h hs
  | rtl => exact List.Pairwise.sublist h hs

/-- Like `env1`, but the oracle reports only tofus (in visual order per
direction). -/
def env9 : Env :=
  { env1 with
    shapeRaw := fun _ _ d t =>
      let tofus := (char_indices t).map fun p =>
        ({ glyph_id := 0, cluster := p.1, unsafe_to_break := false, x_advance := 1,
           x_offset := 0 } : RawInfo)
      match d with
      | .ltr => tofus
      | .rtl => tofus.reverse }

/-- C3 counterexample: an RTL run whose fallback bottoms out emits the
tofu glyphs in ascending source order (`shape_tofus` walks
`char_indices` regardless of direction), so the run's cluster sequence
is 0, 1 — not non-increasing as the claim demands for RTL. -/
theorem c3_counterexample :
    (shape env9 2 ['a', 'b'] st1 .rtl).dir = .rtl ∧
    (shape env9 2 ['a', 'b'] st1 .rtl).glyphs.map (·.cluster) = [0, 1] ∧
    ¬ ClusterSorted .rtl (shape env9 2 ['a', 'b'] st1 .rtl).glyphs := by
  refine ⟨by decide, by decide, ?_⟩
  show ¬ List.Pairwise (fun a b : ShapedGlyph => b.cluster ≤ a.cluster) _
  decide

/-- C3 amended: (1) LTR runs produced by `shape` under a well-formed
non-decreasing oracle have non-decreasing clusters — including tofu
emission, which appends in ascending source order; (2) RTL runs have
non-increasing clusters under a well-formed non-increasing oracle
provided the fallback never bottoms out into `shape_tofus`: an
invariant `P` of the fallback state holds initially, is preserved along
every tofu-recursion step, and guarantees that a failed face lookup
only happens at the top of the stack or on an empty range — tofu runs
that deeper families re-shape are covered; otherwise `shape_tofus`'s
ascending source order breaks the invariant, see the counterexample;
(3) `push_hyphen` preserves the invariant by reusing the last glyph's
cluster; and (4) a borrowed `slice_safe_to_break` slice inherits it. -/
theorem c3_cluster_monotonicity :
    (∀ (env : Env) (st : Styles) (fuel : Nat) (text : List Char),
      (∀ (fid : Nat) (t : List Char), ∀ info ∈ env.shapeRaw fid st .ltr t,
        info.cluster < byteLen t ∧ (charAtByte t info.cluster).isSome = true) →
      (∀ (fid : Nat) (t : List Char),
        List.Pairwise (fun a b : RawInfo => a.cluster ≤ b.cluster)
          (env.shapeRaw fid st .ltr t)) →
      ClusterSorted .ltr (shape env fuel text st .ltr).glyphs) ∧
    (∀ (env : Env) (st : Styles) (fuel : Nat) (text : List Char)
        (P : List Nat → List Char → List String → Prop),
      (∀ (fid : Nat) (t : List Char), ∀ info ∈ env.shapeRaw fid st .rtl t,
        info.cluster < byteLen t ∧ (charAtByte t info.cluster).isSome = true) →
      (∀ (fid : Nat) (t : List Char),
        List.Pairwise (fun a b : RawInfo => b.cluster ≤ a.cluster)
          (env.shapeRaw fid st .rtl t)) →
      (∀ used t fams, P used t fams → selectFace env st used t fams = none →
        used = [] ∨ t = []) →
      (∀ used t fams face_id rest, P used t fams →
        selectFace env st used t fams = some (face_id, rest) →
        ∀ fc lc pc nc,
          Chunk.tofu fc lc pc nc ∈ chunks none (env.shapeRaw face_id st .rtl t) →
          P (used ++ [face_id])
            (byteSlice t (tofuRange .rtl (byteLen t) (.tofu fc lc pc nc)).1
              (tofuRange .rtl (byteLen t) (.tofu fc lc pc nc)).2) rest) →
      (∀ t, P [] t (families st)) →
      ClusterSorted .rtl (shape env fuel text st .rtl).glyphs) ∧
    (∀ (env : Env) (run : ShapedText), ClusterSorted run.dir run.glyphs →
      ClusterSorted run.dir (push_hyphen env run).glyphs) ∧
    (∀ (run : ShapedText) (a b : Nat) (gs : List ShapedGlyph),
      slice_safe_to_break run a b = some gs →
      ClusterSorted run.dir run.glyphs → ClusterSorted run.dir gs) := by
  refine ⟨shape_ltr_sorted, shape_rtl_sorted, ?_, ?_⟩
  · intro env run hs
    unfold push_hyphen
    cases hlk : hyphenLookup env (variant env run.styles) (families run.styles) with
    | none => exact hs
    | some trip =>
      obtain ⟨fid, gid, adv⟩ := trip
      show ClusterSorted run.dir (run.glyphs ++ [_])
      cases hgl : run.glyphs.getLast? with
      | none =>
        have hnil : run.glyphs = [] := by
          by_contra hne
          have := getLast?_isSome_of_ne_nil run.glyphs hne
          rw [hgl] at this
          exact Bool.noConfusion this
        rw [hnil]
        revert hs
        cases run.dir <;> intro hs <;> exact List.pairwise_singleton _ _
      | some gl =>
        revert hs
        cases hdir2 : run.dir <;> intro hs
        · show List.Pairwise (fun a b : ShapedGlyph => a.cluster ≤ b.cluster)
            (run.glyphs ++ [_])
          rw [List.pairwise_append]
          refine ⟨hs, List.pairwise_singleton _ _, ?_⟩
          intro a ha b hb'
          rcases List.mem_singleton.mp hb' with rfl
          show a.cluster ≤ gl.cluster
          exact pairwise_getLast? (fun a b : ShapedGlyph => a.cluster ≤ b.cluster)
            (fun x => Nat.le_refl _) run.glyphs gl hs hgl a ha
        · show List.Pairwise (fun a b : ShapedGlyph => b.cluster ≤ a.cluster)
            (run.glyphs ++ [_])
          rw [List.pairwise_append]
          refine ⟨hs, List.pairwise_singleton _ _, ?_⟩
          intro a ha b hb'
          rcases List.mem_singleton.mp hb' with rfl
          show gl.cluster ≤ a.cluster
          exact pairwise_getLast? (fun a b : ShapedGlyph => b.cluster ≤ a.cluster)
            (fun x => Nat.le_refl _) run.glyphs gl hs hgl a ha
  · intro run a b gs hsl hs
    unfold slice_safe_to_break at hsl
    split at hsl <;> dsimp only at hsl <;> split at hsl
    · rw [Option.some.injEq] at hsl
      rw [← hsl]
      exact clusterSorted_sublist ((List.take_sublist _ _).trans (List.drop_sublist _ _)) hs
    · exact absurd hsl (by simp)
    · rw [Option.some.injEq] at hsl
      rw [← hsl]
      exact clusterSorted_sublist ((List.take_sublist _ _).trans (List.drop_sublist _ _)) hs
    · exact absurd hsl (by simp)

/-- The oracle of `env1` is non-decreasing for LTR. -/
theorem env1_sorted_ltr (st : Styles) : ∀ (fid : Nat) (t : List Char),
    List.Pairwise (fun a b : RawInfo => a.cluster ≤ b.cluster)
      (env1.shapeRaw fid st .ltr t) := by
  intro fid t
  show List.Pairwise _ (perCharInfos t)
  unfold perCharInfos
  rw [List.pairwise_map]
  exact (charIndicesFrom_sorted t 0).imp (fun h => h)

/-- C3 witness: the LTR invariant at a concretely shaped run. -/
theorem c3_witness : ClusterSorted .ltr run1.glyphs :=
  c3_cluster_monotonicity.1 env1 st1 3 ['a', 'b'] (env1_oracle_bounds st1 .ltr)
    (env1_sorted_ltr st1)

/-! ## C6: the tofu source range -/

instance : Inhabited RawInfo := ⟨⟨0, 0, false, 0, 0⟩⟩

/-- The cluster of the info immediately before the current position:
the last cluster of the already-processed prefix, or the inherited
`prev` when the prefix is empty. -/
def lastClusterOpt (prev : Option Nat) (l : List RawInfo) : Option Nat :=
  match l.getLast? with
  | some j => some j.cluster
  | none => prev

/-- Absorbing a whole tofu run into the open-run state only advances the
run's last cluster. -/
theorem chunksAux_absorb (prev : Option Nat) (fc : Nat) :
    ∀ (run : List RawInfo) (lc : Nat) (suf : List RawInfo),
      (∀ i ∈ run, i.glyph_id = 0) →
      chunksAux prev (some (fc, lc)) (run ++ suf) =
        chunksAux prev (some (fc, ((run.getLast?).map (·.cluster)).getD lc)) suf := by
  intro run
  induction run with
  | nil => intro lc suf _; rfl
  | cons i rest ih =>
    intro lc suf hz
    have hz0 : i.glyph_id = 0 := hz i (List.mem_cons_self _ _)
    rw [List.cons_append]
    rw [show chunksAux prev (some (fc, lc)) (i :: (rest ++ suf)) =
        chunksAux prev (some (fc, i.cluster)) (rest ++ suf) by simp [chunksAux, hz0]]
    rw [ih i.cluster suf (fun j hj => hz j (List.mem_cons_of_mem _ hj))]
    congr 1
    cases rest with
    | nil => rfl
    | cons y ys => rfl

/-- Chunking distributes over an append whose left part does not end in
an open tofu run. -/
theorem chunksAux_append_closed :
    ∀ (pre : List RawInfo) (prev : Option Nat) (orun : Option (Nat × Nat))
      (rest : List RawInfo),
      (∀ j, pre.getLast? = some j → j.glyph_id ≠ 0) →
      (pre = [] → orun = none) →
      chunksAux prev orun (pre ++ rest) =
        chunksAux prev orun pre ++ chunksAux (lastClusterOpt prev pre) none rest := by
  intro pre
  induction pre with
  | nil =>
    intro prev orun rest _ hor
    rw [hor rfl]
    rfl
  | cons i pre' ih =>
    intro prev orun rest hlast hor
    have hlast' : ∀ j, pre'.getLast? = some j → j.glyph_id ≠ 0 := by
      intro j hj
      cases pre' with
      | nil => exact absurd hj (by simp)
      | cons y ys =>
        exact hlast j (by rw [show (i :: y :: ys).getLast? = (y :: ys).getLast? from rfl]; exact hj)
    have hlcl : ∀ x : RawInfo, pre' ≠ [] →
        lastClusterOpt (some x.cluster) pre' = lastClusterOpt prev (i :: pre') := by
      intro x hne
      cases pre' with
      | nil => exact absurd rfl hne
      | cons y ys => rfl
    cases orun with
    | none =>
      by_cases hz : i.glyph_id = 0
      · have hpre' : pre' ≠ [] := by
          intro hc
          subst hc
          exact hlast i rfl hz
        rw [List.cons_append]
        rw [show chunksAux prev none (i :: (pre' ++ rest)) =
            chunksAux prev (some (i.cluster, i.cluster)) (pre' ++ rest) by
            simp [chunksAux, hz]]
        rw [show chunksAux prev none (i :: pre') =
            chunksAux prev (some (i.cluster, i.cluster)) pre' by
            simp [chunksAux, hz]]
        rw [ih prev (some (i.cluster, i.cluster)) rest hlast'
          (fun hc => absurd hc hpre')]
        congr 1
        cases pre' with
        | nil => exact absurd rfl hpre'
        | cons y ys => rfl
      · rw [List.cons_append]
        rw [show chunksAux prev none (i :: (pre' ++ rest)) =
            Chunk.glyph i :: chunksAux (some i.cluster) none (pre' ++ rest) by
            simp [chunksAux, hz]]
        rw [show chunksAux prev none (i :: pre') =
            Chunk.glyph i :: chunksAux (some i.cluster) none pre' by
            simp [chunksAux, hz]]
        rw [ih (some i.cluster) none rest hlast' (fun _ => rfl)]
        rw [List.cons_append]
        congr 2
        cases pre' with
        | nil => rfl
        | cons y ys => rfl
    | some rr =>
      obtain ⟨fc, lc⟩ := rr
      by_cases hz : i.glyph_id = 0
      · have hpre' : pre' ≠ [] := by
          intro hc
          subst hc
          exact hlast i rfl hz
        rw [List.cons_append]
        rw [show chunksAux prev (some (fc, lc)) (i :: (pre' ++ rest)) =
            chunksAux prev (some (fc, i.cluster)) (pre' ++ rest) by
            simp [chunksAux, hz]]
        rw [show chunksAux prev (some (fc, lc)) (i :: pre') =
            chunksAux prev (some (fc, i.cluster)) pre' by
            simp [chunksAux, hz]]
        rw [ih prev (some (fc, i.cluster)) rest hlast' (fun hc => absurd hc hpre')]
        congr 1
        cases pre' with
        | nil => exact absurd rfl hpre'
        | cons y ys => rfl
      · rw [List.cons_append]
        rw [show chunksAux prev (some (fc, lc)) (i :: (pre' ++ rest)) =
            Chunk.tofu fc lc prev (some i.cluster) ::
              Chunk.glyph i :: chunksAux (some i.cluster) none (pre' ++ rest) by
            simp [chunksAux, hz]]
        rw [show chunksAux prev (some (fc, lc)) (i :: pre') =
            Chunk.tofu fc lc prev (some i.cluster) ::
              Chunk.glyph i :: chunksAux (some i.cluster) none pre' by
            simp [chunksAux, hz]]
        rw [ih (some i.cluster) none rest hlast' (fun _ => rfl)]
        rw [List.cons_append, List.cons_append]
        congr 3
        cases pre' with
        | nil => rfl
        | cons y ys => rfl

theorem getD_append_right' {α : Type} :
    ∀ (pre l : List α) (n : Nat) (d : α), (pre ++ l).getD (pre.length + n) d = l.getD n d := by
  intro pre
  induction pre with
  | nil =>
    intro l n d
    rw [List.nil_append, List.length_nil, Nat.zero_add]
  | cons x pre' ih =>
    intro l n d
    rw [List.cons_append]
    rw [show (x :: pre').length + n = (pre'.length + n) + 1 by
      rw [List.length_cons]; omega]
    exact ih l n d

theorem getD_append_left' {α : Type} :
    ∀ (pre l : List α) (n : Nat) (d : α), n < pre.length →
      (pre ++ l).getD n d = pre.getD n d := by
  intro pre
  induction pre with
  | nil => intro l n d h; exact absurd h (by simp)
  | cons x pre' ih =>
    intro l n d h
    cases n with
    | zero => rfl
    | succ n' =>
      rw [List.cons_append]
      show (pre' ++ l).getD n' d = pre'.getD n' d
      exact ih l n' d (by rw [List.length_cons] at h; omega)

theorem getD_cons_last {α : Type} :
    ∀ (l : List α) (x d : α), (x :: l).getD l.length d = (l.getLast?).getD x := by
  intro l
  induction l with
  | nil => intro x d; rfl
  | cons y ys ih =>
    intro x d
    show (y :: ys).getD ys.length d = _
    rw [ih y d]
    cases ys with
    | nil => rfl
    | cons z zs =>
      rw [show (y :: z :: zs).getLast? = (z :: zs).getLast? from rfl]
      cases hh : (z :: zs).getLast? with
      | none =>
        have := getLast?_isSome_of_ne_nil (z :: zs) (by simp)
        rw [hh] at this
        exact Bool.noConfusion this
      | some w => rfl

theorem getD_last_of_ne_nil {α : Type} :
    ∀ (l : List α) (d : α), l ≠ [] → l.getD (l.length - 1) d = (l.getLast?).getD d := by
  intro l
  induction l with
  | nil => intro d h; exact absurd rfl h
  | cons x xs ih =>
    intro d _
    cases xs with
    | nil => rfl
    | cons y ys =>
      show (x :: y :: ys).getD ((y :: ys).length + 1 - 1) d = _
      rw [show (y :: ys).length + 1 - 1 = (y :: ys).length from rfl]
      rw [show ((x :: y :: ys).getD (y :: ys).length d) = (y :: ys).getD ys.length d from rfl]
      rw [show (x :: y :: ys).getLast? = (y :: ys).getLast? from rfl]
      rw [show (y :: ys).length = (y :: ys).length - 1 + 1 by rw [List.length_cons]; omega] at ih
      exact ih d (by simp)


/-- C6: a maximal tofu run of the primitive's output (preceded and
followed by a non-tofu info, or by an end of the list) becomes one
`Chunk.tofu`, and the source range computed for it matches the index
formulation of the claim: with `k` the run's first index and `i` its
last, LTR takes `(infos[k].cluster, infos[i+1].cluster or text.len())`
and RTL takes `(infos[i].cluster, infos[k-1].cluster or text.len())`. -/
theorem c6_tofu_range (dir : Dir) (textLen : Nat) (pre : List RawInfo) (r0 : RawInfo)
    (runRest suf : List RawInfo)
    (htofu : ∀ i ∈ r0 :: runRest, i.glyph_id = 0)
    (hpre : (pre.getLast?).all (fun j => j.glyph_id != 0) = true)
    (hsuf : (suf.head?).all (fun j => j.glyph_id != 0) = true) :
    ∃ tail,
      chunks none ((pre ++ (r0 :: runRest)) ++ suf) =
        chunks none pre ++
          Chunk.tofu r0.cluster (((runRest.getLast?).map (·.cluster)).getD r0.cluster)
            (lastClusterOpt none pre) ((suf.head?).map (·.cluster)) :: tail ∧
      tofuRange dir textLen
          (Chunk.tofu r0.cluster (((runRest.getLast?).map (·.cluster)).getD r0.cluster)
            (lastClusterOpt none pre) ((suf.head?).map (·.cluster))) =
        ((if dir.is_positive then
            (((pre ++ (r0 :: runRest)) ++ suf).getD pre.length default).cluster
          else
            (((pre ++ (r0 :: runRest)) ++ suf).getD (pre.length + runRest.length)
              default).cluster),
         (if dir.is_positive then
            (if pre.length + runRest.length + 1 < ((pre ++ (r0 :: runRest)) ++ suf).length then
              (((pre ++ (r0 :: runRest)) ++ suf).getD (pre.length + runRest.length + 1)
                default).cluster
            else textLen)
          else
            (if 0 < pre.length then
              (((pre ++ (r0 :: runRest)) ++ suf).getD (pre.length - 1) default).cluster
            else textLen))) := by
  have hpre' : ∀ j, pre.getLast? = some j → j.glyph_id ≠ 0 := by
    intro j hj
    rw [hj] at hpre
    have h' : (j.glyph_id != 0) = true := hpre
    simpa using h'
  have hz0 : r0.glyph_id = 0 := htofu r0 (List.mem_cons_self _ _)
  have htofu' : ∀ i ∈ runRest, i.glyph_id = 0 := fun i hi => htofu i (List.mem_cons_of_mem _ hi)
  have hd : chunks none ((pre ++ (r0 :: runRest)) ++ suf) =
      chunks none pre ++ chunksAux (lastClusterOpt none pre) none ((r0 :: runRest) ++ suf) := by
    show chunksAux none none ((pre ++ (r0 :: runRest)) ++ suf) =
      chunksAux none none pre ++ chunksAux (lastClusterOpt none pre) none ((r0 :: runRest) ++ suf)
    rw [List.append_assoc]
    exact chunksAux_append_closed pre none none ((r0 :: runRest) ++ suf) hpre' (fun _ => rfl)
  have habs : chunksAux (lastClusterOpt none pre) none ((r0 :: runRest) ++ suf) =
      chunksAux (lastClusterOpt none pre)
        (some (r0.cluster, ((runRest.getLast?).map (·.cluster)).getD r0.cluster)) suf := by
    rw [List.cons_append]
    rw [show chunksAux (lastClusterOpt none pre) none (r0 :: (runRest ++ suf)) =
        chunksAux (lastClusterOpt none pre) (some (r0.cluster, r0.cluster)) (runRest ++ suf) by
        simp [chunksAux, hz0]]
    exact chunksAux_absorb (lastClusterOpt none pre) r0.cluster runRest r0.cluster suf htofu'
  obtain ⟨tail, htail⟩ : ∃ tail,
      chunksAux (lastClusterOpt none pre)
        (some (r0.cluster, ((runRest.getLast?).map (·.cluster)).getD r0.cluster)) suf =
        Chunk.tofu r0.cluster (((runRest.getLast?).map (·.cluster)).getD r0.cluster)
          (lastClusterOpt none pre) ((suf.head?).map (·.cluster)) :: tail := by
    cases suf with
    | nil => exact ⟨[], rfl⟩
    | cons j suf' =>
      have hj : j.glyph_id ≠ 0 := by
        have h' : (j.glyph_id != 0) = true := hsuf
        simpa using h'
      refine ⟨Chunk.glyph j :: chunksAux (some j.cluster) none suf', ?_⟩
      simp [chunksAux, hj]
  refine ⟨tail, ?_, ?_⟩
  · rw [hd, habs, htail]
  · cases dir with
    | ltr =>
      simp only [tofuRange, Dir.is_positive, if_true, Prod.mk.injEq]
      constructor
      · have h1 : (pre ++ ((r0 :: runRest) ++ suf)).getD pre.length default =
            ((r0 :: runRest) ++ suf).getD 0 default :=
          getD_append_right' pre ((r0 :: runRest) ++ suf) 0 default
        rw [List.append_assoc, h1]
        rfl
      · cases suf with
        | nil =>
          rw [if_neg (by
            simp only [List.length_append, List.length_cons, List.length_nil]
            omega)]
          rfl
        | cons j suf' =>
          rw [if_pos (by
            simp only [List.length_append, List.length_cons]
            omega)]
          have h2 : ((pre ++ (r0 :: runRest)) ++ (j :: suf')).getD
              (pre.length + runRest.length + 1) default = j := by
            rw [List.append_assoc]
            have ha := getD_append_right' pre ((r0 :: runRest) ++ (j :: suf'))
              (runRest.length + 1) default
            have hb := getD_append_right' runRest (j :: suf') 0 default
            exact ha.trans hb
          rw [h2]
          rfl
    | rtl =>
      simp only [tofuRange, Dir.is_positive, if_false, Prod.mk.injEq]
      constructor
      · have ha : ((pre ++ (r0 :: runRest)) ++ suf).getD (pre.length + runRest.length)
            default = (r0 :: runRest).getD runRest.length default := by
          rw [List.append_assoc]
          have h1 := getD_append_right' pre ((r0 :: runRest) ++ suf) runRest.length default
          rw [h1]
          exact getD_append_left' (r0 :: runRest) suf runRest.length default
            (by rw [List.length_cons]; omega)
        rw [ha, getD_cons_last runRest r0 default]
        cases hL : runRest.getLast? with
        | none => rfl
        | some w => rfl
      · cases pre with
        | nil =>
          rw [if_neg (by simp)]
          rfl
        | cons p0 pre' =>
          have hF : ¬(false = true) := by decide
          rw [if_neg hF]
          rw [if_neg hF]
          rw [if_pos (show 0 < (p0 :: pre').length by simp)]
          have ha : (((p0 :: pre') ++ (r0 :: runRest)) ++ suf).getD
              ((p0 :: pre').length - 1) default =
              (p0 :: pre').getD ((p0 :: pre').length - 1) default := by
            rw [getD_append_left' ((p0 :: pre') ++ (r0 :: runRest)) suf
              ((p0 :: pre').length - 1) default
              (by simp only [List.length_append, List.length_cons]; omega)]
            exact getD_append_left' (p0 :: pre') (r0 :: runRest)
              ((p0 :: pre').length - 1) default
              (by simp only [List.length_cons]; omega)
          rw [ha, getD_last_of_ne_nil (p0 :: pre') default (by simp)]
          simp only [lastClusterOpt]
          cases hL : (p0 :: pre').getLast? with
          | none =>
            have hs := getLast?_isSome_of_ne_nil (p0 :: pre') (by simp)
            rw [hL] at hs
            exact Bool.noConfusion hs
          | some g => rfl

/-- Concrete infos for the C6 witness: glyph, tofu, tofu, glyph. -/
def i6a : RawInfo := ⟨5, 0, false, 1, 0⟩

def i6b : RawInfo := ⟨0, 1, false, 1, 0⟩

def i6c : RawInfo := ⟨0, 2, false, 1, 0⟩

def i6d : RawInfo := ⟨7, 3, false, 1, 0⟩

/-- C6 witness: the decomposition and range at a concrete RTL input. -/
theorem c6_witness :
    ∃ tail,
      chunks none (([i6a] ++ (i6b :: [i6c])) ++ [i6d]) =
        chunks none [i6a] ++
          Chunk.tofu i6b.cluster ((([i6c].getLast?).map (·.cluster)).getD i6b.cluster)
            (lastClusterOpt none [i6a]) (([i6d].head?).map (·.cluster)) :: tail ∧
      tofuRange Dir.rtl 4
          (Chunk.tofu i6b.cluster ((([i6c].getLast?).map (·.cluster)).getD i6b.cluster)
            (lastClusterOpt none [i6a]) (([i6d].head?).map (·.cluster))) =
        ((if Dir.rtl.is_positive then
            ((([i6a] ++ (i6b :: [i6c])) ++ [i6d]).getD (List.length [i6a]) default).cluster
          else
            ((([i6a] ++ (i6b :: [i6c])) ++ [i6d]).getD
              (List.length [i6a] + List.length [i6c]) default).cluster),
         (if Dir.rtl.is_positive then
            (if List.length [i6a] + List.length [i6c] + 1 <
                (([i6a] ++ (i6b :: [i6c])) ++ [i6d]).length then
              ((([i6a] ++ (i6b :: [i6c])) ++ [i6d]).getD
                (List.length [i6a] + List.length [i6c] + 1) default).cluster
            else 4)
          else
            (if 0 < List.length [i6a] then
              ((([i6a] ++ (i6b :: [i6c])) ++ [i6d]).getD
                (List.length [i6a] - 1) default).cluster
            else 4))) :=
  c6_tofu_range Dir.rtl 4 [i6a] i6b [i6c] [i6d] (by decide) (by decide) (by decide)


/-! ## C1: the borrowed slice of reshape -/

theorem byteLen_append (u v : List Char) : byteLen (u ++ v) = byteLen u + byteLen v := by
  simp [byteLen]

theorem byteLen_pos (u : List Char) (h : u ≠ []) : 0 < byteLen u := by
  cases u with
  | nil => exact absurd rfl h
  | cons c t =>
    have : 0 < c.utf8Size := Char.utf8Size_pos c
    simp only [byteLen, List.map_cons, List.sum_cons]
    omega

theorem byteLen_take_lt (t : List Char) (i j : Nat) (hij : i < j) (hj : j ≤ t.length) :
    byteLen (t.take i) < byteLen (t.take j) := by
  have h1 : t.take j = t.take i ++ (t.drop i).take (j - i) := by
    have h0 := List.take_add t i (j - i)
    rw [show i + (j - i) = j by omega] at h0
    exact h0
  have h2 : (t.drop i).take (j - i) ≠ [] := by
    have hlen : ((t.drop i).take (j - i)).length = j - i := by
      rw [List.length_take, List.length_drop]
      omega
    intro hc
    rw [hc] at hlen
    simp at hlen
    omega
  rw [h1, byteLen_append]
  have := byteLen_pos _ h2
  omega

theorem byteDrop_cons_size (c : Char) (t : List Char) (m : Nat) :
    byteDrop (c :: t) (c.utf8Size + m) = byteDrop t m := by
  have hpos : 0 < c.utf8Size := Char.utf8Size_pos c
  cases h : c.utf8Size + m with
  | zero => omega
  | succ n =>
    show byteDrop t (n + 1 - c.utf8Size) = byteDrop t m
    congr 1
    omega

theorem byteTake_cons_size (c : Char) (t : List Char) (m : Nat) :
    byteTake (c :: t) (c.utf8Size + m) = c :: byteTake t m := by
  have hpos : 0 < c.utf8Size := Char.utf8Size_pos c
  cases h : c.utf8Size + m with
  | zero => omega
  | succ n =>
    show (if c.utf8Size ≤ n + 1 then c :: byteTake t (n + 1 - c.utf8Size) else []) = _
    rw [if_pos (by omega)]
    congr 2
    omega

theorem byteDrop_byteLen_take : ∀ (t : List Char) (i : Nat),
    byteDrop t (byteLen (t.take i)) = t.drop i := by
  intro t
  induction t with
  | nil => intro i; cases i <;> rfl
  | cons c t' ih =>
    intro i
    cases i with
    | zero => rfl
    | succ i' =>
      rw [show (c :: t').take (i' + 1) = c :: t'.take i' from rfl, show byteLen (c :: t'.take i') = c.utf8Size + byteLen (t'.take i') by simp [byteLen]]
      rw [byteDrop_cons_size]
      exact ih i'

theorem byteTake_byteLen_take : ∀ (t : List Char) (m : Nat),
    byteTake t (byteLen (t.take m)) = t.take m := by
  intro t
  induction t with
  | nil => intro m; cases m <;> rfl
  | cons c t' ih =>
    intro m
    cases m with
    | zero => rfl
    | succ m' =>
      rw [show (c :: t').take (m' + 1) = c :: t'.take m' from rfl, show byteLen (c :: t'.take m') = c.utf8Size + byteLen (t'.take m') by simp [byteLen]]
      rw [byteTake_cons_size]
      rw [ih m']

theorem byteSlice_take_drop (t : List Char) (i j : Nat) (hij : i ≤ j) :
    byteSlice t (byteLen (t.take i)) (byteLen (t.take j)) = (t.drop i).take (j - i) := by
  unfold byteSlice
  rw [byteDrop_byteLen_take]
  have h1 : t.take j = t.take i ++ (t.drop i).take (j - i) := by
    have h0 := List.take_add t i (j - i)
    rw [show i + (j - i) = j by omega] at h0
    exact h0
  have h2 : byteLen (t.take j) - byteLen (t.take i) = byteLen ((t.drop i).take (j - i)) := by
    rw [h1, byteLen_append]
    omega
  rw [h2]
  have h3 : (t.drop i).take (j - i) = (t.drop i).take (((t.drop i).take (j - i)).length) := by
    rw [List.length_take]
    rcases Nat.le_total (j - i) (t.drop i).length with h | h
    · rw [Nat.min_eq_left h]
    · rw [Nat.min_eq_right h, List.take_length, List.take_of_length_le h]
  rw [h3, byteTake_byteLen_take]

theorem charIndicesFrom_length : ∀ (t : List Char) (off : Nat),
    (charIndicesFrom off t).length = t.length := by
  intro t
  induction t with
  | nil => intro off; rfl
  | cons c t' ih => intro off; simp [charIndicesFrom, ih]

theorem charIndicesFrom_get? : ∀ (t : List Char) (off k : Nat),
    (charIndicesFrom off t).get? k = (t.get? k).map (fun c => (off + byteLen (t.take k), c)) := by
  intro t
  induction t with
  | nil => intro off k; cases k <;> rfl
  | cons c t' ih =>
    intro off k
    cases k with
    | zero => rfl
    | succ k' =>
      show (charIndicesFrom (off + c.utf8Size) t').get? k' =
        (t'.get? k').map (fun d => (off + byteLen ((c :: t').take (k' + 1)), d))
      rw [ih]
      cases hgk : t'.get? k' with
      | none => rfl
      | some d =>
        show some (off + c.utf8Size + byteLen (t'.take k'), d) =
          some (off + byteLen ((c :: t').take (k' + 1)), d)
        rw [show (c :: t').take (k' + 1) = c :: t'.take k' from rfl,
          show byteLen (c :: t'.take k') = c.utf8Size + byteLen (t'.take k') by simp [byteLen]]
        rw [Nat.add_assoc]

theorem charIndicesFrom_map_shift : ∀ (t : List Char) (off a : Nat),
    (charIndicesFrom off t).map (fun p => (a + p.1, p.2)) = charIndicesFrom (a + off) t := by
  intro t
  induction t with
  | nil => intro off a; rfl
  | cons c t' ih =>
    intro off a
    show (a + off, c) :: (charIndicesFrom (off + c.utf8Size) t').map (fun p => (a + p.1, p.2)) = (a + off, c) :: charIndicesFrom (a + off + c.utf8Size) t'
    rw [ih, Nat.add_assoc]

theorem charIndicesFrom_drop : ∀ (i : Nat) (t : List Char) (off : Nat),
    (charIndicesFrom off t).drop i = charIndicesFrom (off + byteLen (t.take i)) (t.drop i) := by
  intro i
  induction i with
  | zero =>
    intro t off
    show charIndicesFrom off t = charIndicesFrom (off + byteLen (t.take 0)) (t.drop 0)
    rfl
  | succ i' ih =>
    intro t off
    cases t with
    | nil => cases i' <;> rfl
    | cons c t' =>
      show (charIndicesFrom (off + c.utf8Size) t').drop i' = _
      rw [ih]
      rw [show (c :: t').take (i' + 1) = c :: t'.take i' from rfl,
        show byteLen (c :: t'.take i') = c.utf8Size + byteLen (t'.take i') by simp [byteLen],
        show (c :: t').drop (i' + 1) = t'.drop i' from rfl]
      rw [Nat.add_assoc]

theorem charIndicesFrom_take : ∀ (m : Nat) (t : List Char) (off : Nat),
    (charIndicesFrom off t).take m = charIndicesFrom off (t.take m) := by
  intro m
  induction m with
  | zero => intro t off; cases t <;> rfl
  | succ m' ih =>
    intro t off
    cases t with
    | nil => rfl
    | cons c t' =>
      show (off, c) :: (charIndicesFrom (off + c.utf8Size) t').take m' = _
      rw [ih]
      rfl


/-- The per-char oracle class: one non-tofu, safe-to-break glyph per
char, with per-char glyph ids, advances and offsets; clusters are the
byte offsets. -/
def perCharInfosG (gid : Char → Nat) (adv off : Char → Em) (t : List Char) : List RawInfo :=
  (char_indices t).map fun p =>
    { glyph_id := gid p.2, cluster := p.1, unsafe_to_break := false,
      x_advance := adv p.2, x_offset := off p.2 }

/-- The per-char oracle in visual order: reversed for RTL. -/
def perCharRaw (gid : Char → Nat) (adv off : Char → Em) (dir : Dir) (t : List Char) :
    List RawInfo :=
  match dir with
  | .ltr => perCharInfosG gid adv off t
  | .rtl => (perCharInfosG gid adv off t).reverse

/-- One shaped glyph per char as `shape` produces them from a per-char
oracle. -/
def pcgG (fid : Nat) (gid : Char → Nat) (adv off : Char → Em) (p : Nat × Char) : ShapedGlyph :=
  ⟨fid, gid p.2, adv p.2, off p.2, p.1, true, p.2⟩

/-- The glyph list of a per-char run, in visual order. -/
def perCharGlyphs (fid : Nat) (gid : Char → Nat) (adv off : Char → Em) (dir : Dir)
    (t : List Char) : List ShapedGlyph :=
  match dir with
  | .ltr => (char_indices t).map (pcgG fid gid adv off)
  | .rtl => ((char_indices t).map (pcgG fid gid adv off)).reverse

theorem mkGlyph_perCharG (fid : Nat) (gid : Char → Nat) (adv off : Char → Em)
    (text : List Char) :
    ∀ p ∈ char_indices text,
      mkGlyph fid 0 text
        ({ glyph_id := gid p.2, cluster := p.1, unsafe_to_break := false,
           x_advance := adv p.2, x_offset := off p.2 } : RawInfo) = pcgG fid gid adv off p := by
  intro p hp
  obtain ⟨hlt, hat⟩ := char_indices_spec _ p hp
  unfold mkGlyph pcgG
  simp [hat]

/-- Under a store resolving the first family to `fid` and a per-char
oracle, `shape` keeps the text as is and produces exactly one glyph per
char, in visual order, in either direction. -/
theorem shape_perChar (env : Env) (st : Styles) (fid : Nat) (gid : Char → Nat)
    (adv off : Char → Em) (dir : Dir) (fuel : Nat) (text : List Char)
    (f0 : String) (rest0 : List String)
    (hcase : st.textCase = none) (htr : st.tracking = 0) (hsp : st.spacing = 1)
    (hfams : families st = f0 :: rest0)
    (hface : env.select f0 (variant env st) = some fid)
    (hora : ∀ t, env.shapeRaw fid st dir t = perCharRaw gid adv off dir t)
    (hgid : ∀ c, gid c ≠ 0)
    (hch : ∀ c ∈ text, ¬(c = '\n' ∨ c = '\t')) :
    (shape env (fuel + 1) text st dir).text = text ∧
    (shape env (fuel + 1) text st dir).glyphs = perCharGlyphs fid gid adv off dir text := by
  constructor
  · show (match st.textCase with | some k => env.apply_case k text | none => text) = text
    rw [hcase]
  · simp only [shape, hcase]
    unfold track_and_space
    rw [if_pos (show st.tracking = 0 ∧ st.spacing = 1 from ⟨htr, hsp⟩)]
    cases text with
    | nil => cases dir <;> rfl
    | cons c0 trest =>
      rw [if_neg (show ¬((c0 :: trest).isEmpty = true) by simp)]
      simp only [shape_segment]
      have hall : ¬ ((c0 :: trest).all (fun c => c == '\n' || c == '\t') = true) := by
        intro h
        simp only [List.all_cons, Bool.and_eq_true, Bool.or_eq_true, beq_iff_eq] at h
        exact hch c0 (List.mem_cons_self _ _) h.1
      rw [if_neg hall]
      have hsel : selectFace env st [] (c0 :: trest) (f0 :: rest0) = some (fid, rest0) := by
        unfold selectFace findFace
        rw [hface]
        simp
      rw [hfams, hsel]
      show (chunks none (env.shapeRaw fid st dir (c0 :: trest))).foldl
          (segStep dir (fun u g b t f => shape_segment env st dir fuel u g b t f)
            ([] ++ [fid]) fid 0 (c0 :: trest) rest0) [] =
        perCharGlyphs fid gid adv off dir (c0 :: trest)
      rw [hora]
      have hnz : ∀ i ∈ perCharRaw gid adv off dir (c0 :: trest), i.glyph_id ≠ 0 := by
        intro i hi
        have hi' : i ∈ perCharInfosG gid adv off (c0 :: trest) := by
          cases dir with
          | ltr => exact hi
          | rtl => exact List.mem_reverse.mp hi
        rcases List.mem_map.mp hi' with ⟨p, hp, rfl⟩
        exact hgid p.2
      rw [show chunks none (perCharRaw gid adv off dir (c0 :: trest)) =
          chunksAux none none (perCharRaw gid adv off dir (c0 :: trest)) from rfl]
      rw [chunksAux_all_glyph _ none hnz]
      rw [foldl_glyph_chunks]
      rw [List.nil_append]
      cases dir with
      | ltr =>
        show ((char_indices (c0 :: trest)).map (fun p =>
            ({ glyph_id := gid p.2, cluster := p.1, unsafe_to_break := false,
               x_advance := adv p.2, x_offset := off p.2 } : RawInfo))).map
            (mkGlyph fid 0 (c0 :: trest)) =
          (char_indices (c0 :: trest)).map (pcgG fid gid adv off)
        rw [List.map_map]
        exact List.map_congr_left (fun p hp => mkGlyph_perCharG fid gid adv off _ p hp)
      | rtl =>
        show (((char_indices (c0 :: trest)).map (fun p =>
            ({ glyph_id := gid p.2, cluster := p.1, unsafe_to_break := false,
               x_advance := adv p.2, x_offset := off p.2 } : RawInfo))).reverse).map
            (mkGlyph fid 0 (c0 :: trest)) =
          ((char_indices (c0 :: trest)).map (pcgG fid gid adv off)).reverse
        rw [List.map_reverse, List.map_map]
        exact congrArg List.reverse
          (List.map_congr_left (fun p hp => mkGlyph_perCharG fid gid adv off _ p hp))

/-- Index lookup into the per-char glyph list. -/
theorem pcgG_get? (fid : Nat) (gid : Char → Nat) (adv off : Char → Em)
    (text : List Char) (k : Nat) :
    ((char_indices text).map (pcgG fid gid adv off)).get? k =
      (text.get? k).map (fun c => pcgG fid gid adv off (byteLen (text.take k), c)) := by
  rw [List.get?_map]
  simp only [char_indices]
  rw [charIndicesFrom_get?]
  cases text.get? k with
  | none => rfl
  | some c =>
    show some (pcgG fid gid adv off (0 + byteLen (text.take k), c)) =
      some (pcgG fid gid adv off (byteLen (text.take k), c))
    rw [Nat.zero_add]

/-- A cluster match in the per-char glyph list is exactly a char
position whose byte offset is the target. -/
theorem matches_pcgG (fid : Nat) (gid : Char → Nat) (adv off : Char → Em)
    (text : List Char) (t k : Nat) :
    Matches ((char_indices text).map (pcgG fid gid adv off)) t k ↔
      k < text.length ∧ byteLen (text.take k) = t := by
  constructor
  · rintro ⟨g, hg, hc⟩
    rw [pcgG_get?] at hg
    cases hgk : text.get? k with
    | none =>
      rw [hgk] at hg
      exact Option.noConfusion hg
    | some c =>
      rw [hgk] at hg
      have hgv : pcgG fid gid adv off (byteLen (text.take k), c) = g := by
        have h2 : some (pcgG fid gid adv off (byteLen (text.take k), c)) = some g := hg
        injection h2
      refine ⟨get?_some_lt hgk, ?_⟩
      rw [← hgv] at hc
      exact hc
  · rintro ⟨hk, ht⟩
    cases hgk : text.get? k with
    | none =>
      rw [List.get?_eq_none] at hgk
      omega
    | some c =>
      refine ⟨pcgG fid gid adv off (byteLen (text.take k), c), ?_, ht⟩
      rw [pcgG_get?, hgk]
      rfl

/-- The per-char glyph list is LTR-sorted. -/
theorem pcgG_sorted (fid : Nat) (gid : Char → Nat) (adv off : Char → Em) (text : List Char) :
    ClusterSorted .ltr ((char_indices text).map (pcgG fid gid adv off)) := by
  show List.Pairwise _ _
  rw [List.pairwise_map]
  exact (charIndicesFrom_sorted text 0).imp (fun h => h)

/-- Its reverse is RTL-sorted. -/
theorem pcgG_sorted_rtl (fid : Nat) (gid : Char → Nat) (adv off : Char → Em)
    (text : List Char) :
    ClusterSorted .rtl (((char_indices text).map (pcgG fid gid adv off)).reverse) := by
  show List.Pairwise (fun a b : ShapedGlyph => b.cluster ≤ a.cluster) _
  rw [List.pairwise_reverse]
  exact pcgG_sorted fid gid adv off text

/-- Cluster matches in a reversed glyph list, via the mirrored index. -/
theorem matches_reverse {xs : List ShapedGlyph} {t k : Nat} (hk : k < xs.length) :
    Matches xs.reverse t k ↔ Matches xs t (xs.length - 1 - k) := by
  unfold Matches
  rw [List.get?_reverse hk]

/-- On an LTR run with a unique safe glyph for the cluster,
`find_safe_to_break` returns exactly that glyph's index, either way. -/
theorem find_safe_at_unique (run : ShapedText) (hdir : run.dir = .ltr)
    (hs : ClusterSorted .ltr run.glyphs) (t : Nat) (h0 : ¬ t = 0)
    (hL : ¬ t = byteLen run.text) (k : Nat) (hk : Matches run.glyphs t k)
    (huniq : ∀ m, Matches run.glyphs t m → m = k)
    (hsafe : (run.glyphs.getD k default).safe_to_break = true) (towards : Side) :
    find_safe_to_break run t towards = some k := by
  have hs' : ClusterSorted run.dir run.glyphs := by rw [hdir]; exact hs
  have hcomp : (bsIter (clusterCmp run.dir.is_positive t) run.glyphs
      run.glyphs.length 0 run.glyphs.length).isSome = true := by
    apply bsIter_complete _ _ (clusterCmp_mono run.dir run.glyphs t hs') _ _ _
      (by omega) (Nat.le_refl _)
    exact ⟨k, Nat.zero_le _, hk.lt_length, (clusterCmp_eq_iff _ _ _).mpr hk.getD_cluster⟩
  rw [Option.isSome_iff_exists] at hcomp
  obtain ⟨idx0, hb⟩ := hcomp
  have hb' : binary_search_by (clusterCmp run.dir.is_positive t) run.glyphs = some idx0 := hb
  obtain ⟨heq, -, hlt⟩ := bsIter_sound _ _ _ _ _ _ hb
  have hm0 : Matches run.glyphs t idx0 := matches_of_getD hlt ((clusterCmp_eq_iff _ _ _).mp heq)
  have hstage : findStage run t towards = .found k := by
    unfold findStage
    rw [if_neg h0, if_neg hL, hb', hdir]
    cases towards with
    | left =>
      have hsc : scanLeft run.glyphs t idx0 = k :=
        huniq _ ((scanLeft_spec run.glyphs t idx0).2.1 hm0)
      show FindResult.found (scanLeft run.glyphs t idx0) = FindResult.found k
      rw [hsc]
    | right =>
      have hsc : scanRight run.glyphs t idx0 = k :=
        huniq _ ((scanRight_spec run.glyphs t idx0).2.1 hm0)
      show FindResult.found (scanRight run.glyphs t idx0) = FindResult.found k
      rw [hsc]
  unfold find_safe_to_break
  rw [hstage]
  show (if (run.glyphs.getD k default).safe_to_break then some k else none) = some k
  rw [if_pos hsafe]

/-- On an RTL run with a unique safe-successor glyph for the cluster,
`find_safe_to_break` returns the index one past that glyph, either
way. -/
theorem find_safe_at_unique_rtl (run : ShapedText) (hdir : run.dir = .rtl)
    (hs : ClusterSorted .rtl run.glyphs) (t : Nat) (h0 : ¬ t = 0)
    (hL : ¬ t = byteLen run.text) (k : Nat) (hk : Matches run.glyphs t k)
    (huniq : ∀ m, Matches run.glyphs t m → m = k)
    (hsafe : (run.glyphs.getD (k + 1) default).safe_to_break = true) (towards : Side) :
    find_safe_to_break run t towards = some (k + 1) := by
  have hs' : ClusterSorted run.dir run.glyphs := by rw [hdir]; exact hs
  have hcomp : (bsIter (clusterCmp run.dir.is_positive t) run.glyphs
      run.glyphs.length 0 run.glyphs.length).isSome = true := by
    apply bsIter_complete _ _ (clusterCmp_mono run.dir run.glyphs t hs') _ _ _
      (by omega) (Nat.le_refl _)
    exact ⟨k, Nat.zero_le _, hk.lt_length, (clusterCmp_eq_iff _ _ _).mpr hk.getD_cluster⟩
  rw [Option.isSome_iff_exists] at hcomp
  obtain ⟨idx0, hb⟩ := hcomp
  have hb' : binary_search_by (clusterCmp run.dir.is_positive t) run.glyphs = some idx0 := hb
  obtain ⟨heq, -, hlt⟩ := bsIter_sound _ _ _ _ _ _ hb
  have hm0 : Matches run.glyphs t idx0 := matches_of_getD hlt ((clusterCmp_eq_iff _ _ _).mp heq)
  have hstage : findStage run t towards = .found (k + 1) := by
    unfold findStage
    rw [if_neg h0, if_neg hL, hb', hdir]
    cases towards with
    | left =>
      have hsc : scanLeft run.glyphs t idx0 = k :=
        huniq _ ((scanLeft_spec run.glyphs t idx0).2.1 hm0)
      show FindResult.found (scanLeft run.glyphs t idx0 + 1) = FindResult.found (k + 1)
      rw [hsc]
    | right =>
      have hsc : scanRight run.glyphs t idx0 = k :=
        huniq _ ((scanRight_spec run.glyphs t idx0).2.1 hm0)
      show FindResult.found (scanRight run.glyphs t idx0 + 1) = FindResult.found (k + 1)
      rw [hsc]
  unfold find_safe_to_break
  rw [hstage]
  show (if (run.glyphs.getD (k + 1) default).safe_to_break then some (k + 1) else none) =
    some (k + 1)
  rw [if_pos hsafe]

/-- On an LTR run shaped from a per-char oracle, both boundary searches
land exactly on the char position of the boundary byte offset. -/
theorem find_perChar_boundary_ltr (env : Env) (st : Styles) (fid : Nat) (gid : Char → Nat)
    (adv off : Char → Em) (fuel : Nat) (text : List Char) (f0 : String) (rest0 : List String)
    (hcase : st.textCase = none) (htr : st.tracking = 0) (hsp : st.spacing = 1)
    (hfams : families st = f0 :: rest0)
    (hface : env.select f0 (variant env st) = some fid)
    (hora : ∀ t, env.shapeRaw fid st .ltr t = perCharRaw gid adv off .ltr t)
    (hgid : ∀ c, gid c ≠ 0)
    (hch : ∀ c ∈ text, ¬(c = '\n' ∨ c = '\t'))
    (k : Nat) (hk : k ≤ text.length) (towards : Side) :
    find_safe_to_break (shape env (fuel + 1) text st .ltr) (byteLen (text.take k)) towards =
      some k := by
  obtain ⟨htext, hglyphs⟩ := shape_perChar env st fid gid adv off .ltr fuel text f0 rest0
    hcase htr hsp hfams hface hora hgid hch
  rw [show perCharGlyphs fid gid adv off .ltr text =
    (char_indices text).map (pcgG fid gid adv off) from rfl] at hglyphs
  have hdir : (shape env (fuel + 1) text st .ltr).dir = .ltr := rfl
  have hlen : (shape env (fuel + 1) text st .ltr).glyphs.length = text.length := by
    rw [hglyphs, List.length_map]
    simp only [char_indices]
    rw [charIndicesFrom_length]
  by_cases h0 : byteLen (text.take k) = 0
  · have hk0 : k = 0 := by
      by_contra hne
      have hb := byteLen_take_lt text 0 k (Nat.pos_of_ne_zero hne) hk
      rw [List.take_zero] at hb
      rw [byteLen_nil] at hb
      omega
    subst hk0
    unfold find_safe_to_break findStage
    rw [if_pos h0]
    rfl
  · by_cases hL : byteLen (text.take k) = byteLen (shape env (fuel + 1) text st .ltr).text
    · rw [htext] at hL
      have hkL : k = text.length := by
        by_contra hne
        have hb := byteLen_take_lt text k text.length (by omega) (Nat.le_refl _)
        rw [List.take_length] at hb
        omega
      unfold find_safe_to_break findStage
      rw [if_neg h0, if_pos (by rw [htext]; exact hL)]
      show some ((shape env (fuel + 1) text st Dir.ltr).glyphs.length) = some k
      rw [hlen, hkL]
    · rw [htext] at hL
      have hkl : k < text.length := by
        rcases Nat.lt_or_ge k text.length with h | h
        · exact h
        · have hkeq : k = text.length := by omega
          exact absurd (by rw [hkeq, List.take_length]) hL
      apply find_safe_at_unique _ hdir
        (by rw [hglyphs]; exact pcgG_sorted fid gid adv off text) _ h0
        (by rw [htext]; exact hL) k
        (by rw [hglyphs]; exact (matches_pcgG fid gid adv off text _ k).mpr ⟨hkl, rfl⟩)
        ?huniq ?hsafe towards
      case huniq =>
        intro m hm
        rw [hglyphs] at hm
        obtain ⟨hml, hmb⟩ := (matches_pcgG fid gid adv off text _ m).mp hm
        by_contra hne
        rcases Nat.lt_or_ge m k with h | h
        · have := byteLen_take_lt text m k h (by omega)
          omega
        · have := byteLen_take_lt text k m (by omega) (by omega)
          omega
      case hsafe =>
        rw [hglyphs, List.getD_eq_get?, pcgG_get?]
        cases hgk : text.get? k with
        | none =>
          rw [List.get?_eq_none] at hgk
          omega
        | some c => rfl

/-- On an RTL run shaped from a per-char oracle, both boundary searches
land exactly on the mirrored glyph position of the boundary byte
offset. -/
theorem find_perChar_boundary_rtl (env : Env) (st : Styles) (fid : Nat) (gid : Char → Nat)
    (adv off : Char → Em) (fuel : Nat) (text : List Char) (f0 : String) (rest0 : List String)
    (hcase : st.textCase = none) (htr : st.tracking = 0) (hsp : st.spacing = 1)
    (hfams : families st = f0 :: rest0)
    (hface : env.select f0 (variant env st) = some fid)
    (hora : ∀ t, env.shapeRaw fid st .rtl t = perCharRaw gid adv off .rtl t)
    (hgid : ∀ c, gid c ≠ 0)
    (hch : ∀ c ∈ text, ¬(c = '\n' ∨ c = '\t'))
    (k : Nat) (hk : k ≤ text.length) (towards : Side) :
    find_safe_to_break (shape env (fuel + 1) text st .rtl) (byteLen (text.take k)) towards =
      some (text.length - k) := by
  obtain ⟨htext, hglyphs⟩ := shape_perChar env st fid gid adv off .rtl fuel text f0 rest0
    hcase htr hsp hfams hface hora hgid hch
  rw [show perCharGlyphs fid gid adv off .rtl text =
    ((char_indices text).map (pcgG fid gid adv off)).reverse from rfl] at hglyphs
  have hdir : (shape env (fuel + 1) text st .rtl).dir = .rtl := rfl
  have hlenG : ((char_indices text).map (pcgG fid gid adv off)).length = text.length := by
    rw [List.length_map]
    simp only [char_indices]
    rw [charIndicesFrom_length]
  have hlen : (shape env (fuel + 1) text st .rtl).glyphs.length = text.length := by
    rw [hglyphs, List.length_reverse, hlenG]
  by_cases h0 : byteLen (text.take k) = 0
  · have hk0 : k = 0 := by
      by_contra hne
      have hb := byteLen_take_lt text 0 k (Nat.pos_of_ne_zero hne) hk
      rw [List.take_zero] at hb
      rw [byteLen_nil] at hb
      omega
    subst hk0
    unfold find_safe_to_break findStage
    rw [if_pos h0]
    show some ((shape env (fuel + 1) text st Dir.rtl).glyphs.length) = some (text.length - 0)
    rw [hlen, Nat.sub_zero]
  · by_cases hL : byteLen (text.take k) = byteLen (shape env (fuel + 1) text st .rtl).text
    · rw [htext] at hL
      have hkL : k = text.length := by
        by_contra hne
        have hb := byteLen_take_lt text k text.length (by omega) (Nat.le_refl _)
        rw [List.take_length] at hb
        omega
      unfold find_safe_to_break findStage
      rw [if_neg h0, if_pos (by rw [htext]; exact hL)]
      show some 0 = some (text.length - k)
      rw [hkL, Nat.sub_self]
    · rw [htext] at hL
      have hkl : k < text.length := by
        rcases Nat.lt_or_ge k text.length with h | h
        · exact h
        · have hkeq : k = text.length := by omega
          exact absurd (by rw [hkeq, List.take_length]) hL
      have hk1 : 0 < k :=
        Nat.pos_of_ne_zero (fun hc => h0 (by rw [hc, List.take_zero, byteLen_nil]))
      rw [show text.length - k = (text.length - 1 - k) + 1 by omega]
      apply find_safe_at_unique_rtl _ hdir
        (by rw [hglyphs]; exact pcgG_sorted_rtl fid gid adv off text) _ h0
        (by rw [htext]; exact hL) (text.length - 1 - k)
        ?hk ?huniq ?hsafe towards
      case hk =>
        rw [hglyphs]
        refine (matches_reverse (by rw [hlenG]; omega)).mpr ?_
        rw [hlenG]
        rw [show text.length - 1 - (text.length - 1 - k) = k by omega]
        exact (matches_pcgG fid gid adv off text _ k).mpr ⟨hkl, rfl⟩
      case huniq =>
        intro m hm
        rw [hglyphs] at hm
        have hmlt : m < ((char_indices text).map (pcgG fid gid adv off)).length := by
          have h2 := hm.lt_length
          rw [List.length_reverse] at h2
          exact h2
        have hm' := (matches_reverse hmlt).mp hm
        rw [hlenG] at hm' hmlt
        obtain ⟨hml, hmb⟩ := (matches_pcgG fid gid adv off text _ _).mp hm'
        have heq : text.length - 1 - m = k := by
          by_contra hne
          rcases Nat.lt_or_ge (text.length - 1 - m) k with h | h
          · have := byteLen_take_lt text _ k h (by omega)
            omega
          · have := byteLen_take_lt text k (text.length - 1 - m) (by omega) (by omega)
            omega
        omega
      case hsafe =>
        rw [hglyphs]
        rw [show text.length - 1 - k + 1 = text.length - k by omega]
        rw [List.getD_eq_get?]
        rw [List.get?_reverse (by rw [hlenG]; omega)]
        rw [hlenG]
        rw [show text.length - 1 - (text.length - k) = k - 1 by omega]
        rw [pcgG_get?]
        cases hgk : text.get? (k - 1) with
        | none =>
          rw [List.get?_eq_none] at hgk
          omega
        | some c => rfl

/-- The middle segment of `char_indices` is the shifted `char_indices`
of the char-sliced text. -/
theorem ci_middle (text : List Char) (i j : Nat) :
    ((char_indices text).drop i).take (j - i) =
      (char_indices ((text.drop i).take (j - i))).map
        (fun p => (byteLen (text.take i) + p.1, p.2)) := by
  simp only [char_indices]
  rw [charIndicesFrom_drop, charIndicesFrom_take, charIndicesFrom_map_shift]
  rw [Nat.zero_add, Nat.add_zero]

/-- The middle segment of the per-char glyph list is the cluster-shifted
per-char glyph list of the char-sliced text. -/
theorem pcgG_middle (fid : Nat) (gid : Char → Nat) (adv off : Char → Em)
    (text : List Char) (i j : Nat) :
    (((char_indices text).map (pcgG fid gid adv off)).drop i).take (j - i) =
      ((char_indices ((text.drop i).take (j - i))).map (pcgG fid gid adv off)).map
        (fun g => { g with cluster := byteLen (text.take i) + g.cluster }) := by
  rw [← List.map_drop, ← List.map_take]
  rw [List.map_map]
  rw [show ((fun g => { g with cluster := byteLen (text.take i) + g.cluster }) ∘
      pcgG fid gid adv off) =
    (pcgG fid gid adv off ∘ fun p : Nat × Char => (byteLen (text.take i) + p.1, p.2)) from by
    funext p
    rfl]
  rw [← List.map_map]
  rw [← ci_middle]

/-- Slicing a reversed list is the reversed mirrored slice. -/
theorem reverse_middle {α : Type} (l : List α) (i j : Nat) (hij : i ≤ j) (hjl : j ≤ l.length) :
    (l.reverse.drop (l.length - j)).take ((l.length - i) - (l.length - j)) =
      ((l.drop i).take (j - i)).reverse := by
  rw [List.drop_reverse]
  rw [show l.length - (l.length - j) = j by omega]
  rw [List.take_reverse]
  rw [List.length_take]
  rw [show min j l.length = j from Nat.min_eq_left hjl]
  rw [show j - ((l.length - i) - (l.length - j)) = i by omega]
  rw [List.drop_take]

/-- C1 (amended): on a run shaped — in either direction — from a store
resolving the first family and a per-char primitive (one safe-to-break
non-tofu glyph per char in visual order), with zero tracking, unit
spacing and no case transform, slicing at char boundaries always
succeeds (`slice_safe_to_break` returns a borrowed slice) and the
borrowed glyphs equal the from-scratch shaping of the sub-text with
every cluster offset by the range start — the code keeps borrowed
clusters relative to the parent text instead of rebasing them.  The
tracking/spacing/case provisos are load-bearing: re-shaping re-applies
them to the sub-run, so e.g. with nonzero tracking the glyph at the
slice's right edge keeps the parent's tracked advance while the
from-scratch glyph does not. -/
theorem c1_borrowed_rebased (env : Env) (st : Styles) (fid : Nat) (gid : Char → Nat)
    (adv off : Char → Em) (dir : Dir) (fuel : Nat) (text : List Char)
    (f0 : String) (rest0 : List String) (i j : Nat)
    (hij : i ≤ j) (hjl : j ≤ text.length)
    (hcase : st.textCase = none) (htr : st.tracking = 0) (hsp : st.spacing = 1)
    (hfams : families st = f0 :: rest0)
    (hface : env.select f0 (variant env st) = some fid)
    (hora : ∀ t, env.shapeRaw fid st dir t = perCharRaw gid adv off dir t)
    (hgid : ∀ c, gid c ≠ 0)
    (hch : ∀ c ∈ text, ¬(c = '\n' ∨ c = '\t')) :
    (slice_safe_to_break (shape env (fuel + 1) text st dir)
        (byteLen (text.take i)) (byteLen (text.take j))).isSome = true ∧
    (reshape env (fuel + 1) (shape env (fuel + 1) text st dir)
        (byteLen (text.take i)) (byteLen (text.take j))).glyphs =
      ((shape env (fuel + 1)
          (byteSlice text (byteLen (text.take i)) (byteLen (text.take j))) st dir).glyphs).map
        (fun g => { g with cluster := byteLen (text.take i) + g.cluster }) := by
  have hch' : ∀ c ∈ (text.drop i).take (j - i), ¬(c = '\n' ∨ c = '\t') :=
    fun c hc => hch c (List.drop_subset _ _ (List.take_subset _ _ hc))
  cases dir with
  | ltr =>
    obtain ⟨htext, hglyphs⟩ := shape_perChar env st fid gid adv off .ltr fuel text f0 rest0
      hcase htr hsp hfams hface hora hgid hch
    have hfl := find_perChar_boundary_ltr env st fid gid adv off fuel text f0 rest0
      hcase htr hsp hfams hface hora hgid hch i (by omega) .left
    have hfr := find_perChar_boundary_ltr env st fid gid adv off fuel text f0 rest0
      hcase htr hsp hfams hface hora hgid hch j hjl .right
    have hsl : slice_safe_to_break (shape env (fuel + 1) text st .ltr)
        (byteLen (text.take i)) (byteLen (text.take j)) =
        some (((shape env (fuel + 1) text st .ltr).glyphs.drop i).take (j - i)) := by
      unfold slice_safe_to_break
      show (match
          find_safe_to_break (shape env (fuel + 1) text st Dir.ltr)
            (byteLen (text.take i)) .left,
          find_safe_to_break (shape env (fuel + 1) text st Dir.ltr)
            (byteLen (text.take j)) .right
        with
        | some left, some right =>
          some (((shape env (fuel + 1) text st Dir.ltr).glyphs.drop left).take (right - left))
        | _, _ => none) =
        some (((shape env (fuel + 1) text st Dir.ltr).glyphs.drop i).take (j - i))
      rw [hfl, hfr]
    refine ⟨by rw [hsl]; rfl, ?_⟩
    have hres : (reshape env (fuel + 1) (shape env (fuel + 1) text st .ltr)
        (byteLen (text.take i)) (byteLen (text.take j))).glyphs =
        ((shape env (fuel + 1) text st .ltr).glyphs.drop i).take (j - i) := by
      unfold reshape
      rw [hsl]
    rw [hres, hglyphs]
    rw [show perCharGlyphs fid gid adv off .ltr text =
      (char_indices text).map (pcgG fid gid adv off) from rfl]
    rw [byteSlice_take_drop text i j hij]
    obtain ⟨-, hglyphs2⟩ := shape_perChar env st fid gid adv off .ltr fuel
      ((text.drop i).take (j - i)) f0 rest0 hcase htr hsp hfams hface hora hgid hch'
    rw [hglyphs2]
    rw [show perCharGlyphs fid gid adv off .ltr ((text.drop i).take (j - i)) =
      (char_indices ((text.drop i).take (j - i))).map (pcgG fid gid adv off) from rfl]
    exact pcgG_middle fid gid adv off text i j
  | rtl =>
    obtain ⟨htext, hglyphs⟩ := shape_perChar env st fid gid adv off .rtl fuel text f0 rest0
      hcase htr hsp hfams hface hora hgid hch
    have hfL := find_perChar_boundary_rtl env st fid gid adv off fuel text f0 rest0
      hcase htr hsp hfams hface hora hgid hch j hjl .left
    have hfR := find_perChar_boundary_rtl env st fid gid adv off fuel text f0 rest0
      hcase htr hsp hfams hface hora hgid hch i (by omega) .right
    have hsl : slice_safe_to_break (shape env (fuel + 1) text st .rtl)
        (byteLen (text.take i)) (byteLen (text.take j)) =
        some (((shape env (fuel + 1) text st .rtl).glyphs.drop (text.length - j)).take
          ((text.length - i) - (text.length - j))) := by
      unfold slice_safe_to_break
      show (match
          find_safe_to_break (shape env (fuel + 1) text st Dir.rtl)
            (byteLen (text.take j)) .left,
          find_safe_to_break (shape env (fuel + 1) text st Dir.rtl)
            (byteLen (text.take i)) .right
        with
        | some left, some right =>
          some (((shape env (fuel + 1) text st Dir.rtl).glyphs.drop left).take (right - left))
        | _, _ => none) =
        some (((shape env (fuel + 1) text st Dir.rtl).glyphs.drop (text.length - j)).take
          ((text.length - i) - (text.length - j)))
      rw [hfL, hfR]
    refine ⟨by rw [hsl]; rfl, ?_⟩
    have hres : (reshape env (fuel + 1) (shape env (fuel + 1) text st .rtl)
        (byteLen (text.take i)) (byteLen (text.take j))).glyphs =
        ((shape env (fuel + 1) text st .rtl).glyphs.drop (text.length - j)).take
          ((text.length - i) - (text.length - j)) := by
      unfold reshape
      rw [hsl]
    rw [hres, hglyphs]
    rw [show perCharGlyphs fid gid adv off .rtl text =
      ((char_indices text).map (pcgG fid gid adv off)).reverse from rfl]
    rw [byteSlice_take_drop text i j hij]
    obtain ⟨-, hglyphs2⟩ := shape_perChar env st fid gid adv off .rtl fuel
      ((text.drop i).take (j - i)) f0 rest0 hcase htr hsp hfams hface hora hgid hch'
    rw [hglyphs2]
    rw [show perCharGlyphs fid gid adv off .rtl ((text.drop i).take (j - i)) =
      ((char_indices ((text.drop i).take (j - i))).map (pcgG fid gid adv off)).reverse
      from rfl]
    rw [List.map_reverse]
    have hrev := reverse_middle ((char_indices text).map (pcgG fid gid adv off)) i j hij
      (by rw [List.length_map]; simp only [char_indices]; rw [charIndicesFrom_length]; exact hjl)
    rw [show ((char_indices text).map (pcgG fid gid adv off)).length = text.length from by
      rw [List.length_map]; simp only [char_indices]; rw [charIndicesFrom_length]] at hrev
    rw [hrev, pcgG_middle]

/-- C1 witness: the borrowed slice and the rebased re-shaping agree on a
concrete three-char RTL run sliced at bytes 1..3. -/
theorem c1_witness :
    (slice_safe_to_break (shape env1 3 ['a', 'b', 'c'] st1 .rtl)
        (byteLen (['a', 'b', 'c'].take 1)) (byteLen (['a', 'b', 'c'].take 3))).isSome = true ∧
    (reshape env1 3 (shape env1 3 ['a', 'b', 'c'] st1 .rtl)
        (byteLen (['a', 'b', 'c'].take 1)) (byteLen (['a', 'b', 'c'].take 3))).glyphs =
      ((shape env1 3
          (byteSlice ['a', 'b', 'c'] (byteLen (['a', 'b', 'c'].take 1))
            (byteLen (['a', 'b', 'c'].take 3))) st1 .rtl).glyphs).map
        (fun g => { g with cluster := byteLen (['a', 'b', 'c'].take 1) + g.cluster }) :=
  c1_borrowed_rebased env1 st1 1 (fun _ => 1) (fun _ => 1) (fun _ => 0) .rtl 2
    ['a', 'b', 'c'] "f" [] 1 3 (by decide) (by decide) rfl rfl rfl rfl rfl
    (fun t => rfl) (fun c => one_ne_zero) (by decide)

end Shaping
